import Mathlib

/-! The dive-in backend: job registry, job orchestrator and bounded history store.

A shallow embedding of `vm/main.go`, `vm/history/types.go` and
`vm/history/store.go`.

Conventions of the embedding.

* Go `string` is `String`; `[]byte` / `json.RawMessage` is `Bytes`.
* `time.Time` is `Time`, the instant as an integer count of nanoseconds; the
  zero `time.Time` is `0`; `Before` / `After` compare instants.
* `type JobStatus string` is `String`, with the four constants of the source.
* The standard library is not part of the repository.  `encoding/json` enters
  as parameters (`unmarshalSummary`, `Codec`), `sort.Slice` as a parameter
  that is only known to return a sorted permutation, the wall clock and the
  random identifiers as explicit inputs.
* The file system is a finite table from absolute, cleaned paths to nodes
  (`FS`).  Permissions, symbolic links and resource limits are outside the
  model: an operation fails only for the structural reasons the table shows
  (a missing path, a file where a directory is needed, a directory where a
  file is needed).
-/

namespace DiveIn

/-! ## Basic types -/

abbrev Bytes := List UInt8

abbrev Time := Int

/-- The zero value of `time.Time`. -/
def Time.zero : Time := 0

/-- Method `time.Time.Before`. -/
def Time.Before (a b : Time) : Bool := decide (a < b)

/-- Method `time.Time.After`. -/
def Time.After (a b : Time) : Bool := decide (b < a)

/-- A Go `error` value, kept as its message text. -/
abbrev GoError := String

deriving instance DecidableEq for Except

/-! ## strings.TrimSpace -/

/-- Function `unicode.IsSpace`: the code points with the White_Space property. -/
def isSpace (c : Char) : Bool :=
  let n := c.toNat
  n == 0x09 || n == 0x0A || n == 0x0B || n == 0x0C || n == 0x0D || n == 0x20 ||
  n == 0x85 || n == 0xA0 || n == 0x1680 || (0x2000 ≤ n && n ≤ 0x200A) ||
  n == 0x2028 || n == 0x2029 || n == 0x202F || n == 0x205F || n == 0x3000

/-- Function `strings.TrimSpace`: drop leading and trailing white space. -/
def TrimSpace (s : String) : String :=
  ⟨((s.data.dropWhile isSpace).reverse.dropWhile isSpace).reverse⟩

/-- A string is blank when it is empty or consists of white space only. -/
def isBlank (s : String) : Bool := s.data.all isSpace

/-! ## vm/history/types.go -/

/-- A `float64`, kept as its IEEE 754 bit pattern; the code only copies it. -/
structure Float64 where
  bits : Nat
deriving DecidableEq, Repr

structure Summary where
  SizeBytes : Int
  InefficientBytes : Int
  EfficiencyScore : Float64
deriving DecidableEq, Repr

structure Metadata where
  ID : String
  Image : String
  Source : String
  CreatedAt : Time
  CompletedAt : Time
  Summary : Summary
deriving DecidableEq, Repr

structure Entry where
  Metadata : Metadata
  Result : Bytes
deriving DecidableEq, Repr

/-- The anonymous struct under `image` of `diveSummaryPayload`. -/
structure DiveSummaryImage where
  SizeBytes : Int
  InefficientBytes : Int
  EfficiencyScore : Float64
deriving DecidableEq, Repr

structure diveSummaryPayload where
  Image : DiveSummaryImage
deriving DecidableEq, Repr

/-- Function `NewEntry`.  `unmarshalSummary` stands for
`json.Unmarshal(result, &payload)`: `.error` carries the parse error text. -/
def NewEntry (unmarshalSummary : Bytes → Except GoError diveSummaryPayload)
    (id image source : String) (startedAt completedAt : Time) (result : Bytes) :
    Except GoError Entry :=
  if result.length = 0 then
    .error "analysis result is empty"
  else
    match unmarshalSummary result with
    | .error err => .error ("failed to parse analysis result: " ++ err)
    | .ok payload =>
      .ok
        { Metadata :=
            { ID := id
              Image := image
              Source := source
              CreatedAt := startedAt
              CompletedAt := completedAt
              Summary :=
                { SizeBytes := payload.Image.SizeBytes
                  InefficientBytes := payload.Image.InefficientBytes
                  EfficiencyScore := payload.Image.EfficiencyScore } }
          Result := result }

/-! ## Paths: path/filepath -/

/-- An absolute, cleaned path: its elements below the root. -/
abbrev Path := List String

/-- Split the characters of a string at every `/`; `cur` holds, reversed, the
characters of the element being read. -/
def splitSlashAux : List Char → List Char → List String
  | [], cur => [String.mk cur.reverse]
  | c :: cs, cur =>
    if c = '/' then String.mk cur.reverse :: splitSlashAux cs []
    else splitSlashAux cs (c :: cur)

/-- The elements of a slash-separated string, empty ones included. -/
def splitSlash (s : String) : List String := splitSlashAux s.data []

/-- One step of `filepath.Clean` on a rooted path: empty elements and `.` are
dropped, `..` removes the last element (and is dropped at the root). -/
def cleanStep (acc : Path) (elem : String) : Path :=
  if elem = "" ∨ elem = "." then acc
  else if elem = ".." then acc.dropLast
  else acc ++ [elem]

/-- Function `filepath.Join(base, rel)` for a rooted, cleaned `base`. -/
def Join (base : Path) (rel : String) : Path :=
  (splitSlash rel).foldl cleanStep base

/-! ## The file system -/

inductive Node where
  | file (data : Bytes)
  | dir
deriving DecidableEq, Repr

/-- The table of the file system; the first binding of a path is the one in
force, the root is always a directory. -/
abbrev FS := List (Path × Node)

inductive Errno where
  | ENOENT
  | ENOTDIR
  | EISDIR
  | EBUSY
deriving DecidableEq, Repr

/-- Function `os.IsNotExist`. -/
def IsNotExist (e : Errno) : Bool := e == Errno.ENOENT

namespace FS

/-- The binding of a path in the table. -/
def node : FS → Path → Option Node
  | _, [] => some Node.dir
  | [], _ :: _ => none
  | (q, n) :: fs, c :: cs => if q = c :: cs then some n else node fs (c :: cs)

/-- Resolve `pre ++ rest`, the prefix `pre` being a directory already: every
element on the way must be a directory. -/
def walk (fs : FS) : Path → List String → Except Errno Node
  | pre, [] =>
    match fs.node pre with
    | some n => .ok n
    | none => .error Errno.ENOENT
  | pre, c :: cs =>
    match fs.node pre with
    | some Node.dir => walk fs (pre ++ [c]) cs
    | some (Node.file _) => .error Errno.ENOTDIR
    | none => .error Errno.ENOENT

/-- The node a path resolves to (`stat`). -/
def stat (fs : FS) (p : Path) : Except Errno Node := fs.walk [] p

/-- Bind `p` to `n`, replacing an earlier binding. -/
def put (fs : FS) (p : Path) (n : Node) : FS :=
  (p, n) :: fs.filter (fun kv => decide (kv.1 ≠ p))

/-- Drop `p` and everything below it. -/
def prune (fs : FS) (p : Path) : FS :=
  fs.filter (fun kv => !(p.isPrefixOf kv.1))

/-- Create the directories `pre ++ [c₁]`, `pre ++ [c₁, c₂]`, ... that are
missing; fail at a regular file.  A new directory starts empty: bindings of
the table below a path that did not exist are dropped. -/
def mkdirFrom : FS → Path → List String → Except Errno FS
  | fs, _, [] => .ok fs
  | fs, pre, c :: cs =>
    match fs.node (pre ++ [c]) with
    | some Node.dir => mkdirFrom fs (pre ++ [c]) cs
    | some (Node.file _) => .error Errno.ENOTDIR
    | none => mkdirFrom ((fs.prune (pre ++ [c])).put (pre ++ [c]) Node.dir) (pre ++ [c]) cs

/-- Function `os.MkdirAll`. -/
def MkdirAll (fs : FS) (p : Path) : Except Errno FS := mkdirFrom fs [] p

/-- Function `os.ReadFile`. -/
def ReadFile (fs : FS) (p : Path) : Except Errno Bytes :=
  match fs.stat p with
  | .ok (Node.file d) => .ok d
  | .ok Node.dir => .error Errno.EISDIR
  | .error e => .error e

/-- The order of file names: byte-wise, which on UTF-8 is the order of the
code points. -/
def nameLE : List Char → List Char → Bool
  | [], _ => true
  | _ :: _, [] => false
  | a :: as, b :: bs =>
    if a.toNat < b.toNat then true
    else if b.toNat < a.toNat then false
    else nameLE as bs

/-- The names bound directly below `p` in the table, in table order. -/
def childNames (fs : FS) (p : Path) : List String :=
  fs.filterMap (fun kv =>
    match kv.1.getLast? with
    | some c => if kv.1 = p ++ [c] then some c else none
    | none => none)

/-- Function `os.ReadDir`: the entries of a directory, sorted by file name,
each with its `IsDir` flag. -/
def ReadDir (fs : FS) (p : Path) : Except Errno (List (String × Bool)) :=
  match fs.stat p with
  | .ok Node.dir =>
    .ok (((fs.childNames p).dedup.insertionSort (fun a b => nameLE a.data b.data = true)).map
      (fun c => (c, decide (fs.node (p ++ [c]) = some Node.dir))))
  | .ok (Node.file _) => .error Errno.ENOTDIR
  | .error e => .error e

/-- Function `os.RemoveAll`: the state afterwards and the error returned.  A
missing path is no error; a path through a regular file is one (`ENOTDIR`);
the root itself cannot be removed, though its contents are. -/
def RemoveAll (fs : FS) (p : Path) : FS × Option Errno :=
  match p with
  | [] => ([], some Errno.EBUSY)
  | _ :: _ =>
    match fs.stat p.dropLast with
    | .ok Node.dir => (fs.prune p, none)
    | .ok (Node.file _) => (fs, some Errno.ENOTDIR)
    | .error e => if IsNotExist e then (fs, none) else (fs, some e)

/-- Function `os.Rename` of a regular file `old` to `new`: a directory at
`new` is not replaced, and the directory of `new` has to exist. -/
def Rename (fs : FS) (old new : Path) : Except Errno FS :=
  match fs.stat old with
  | .ok (Node.file d) =>
    match fs.stat new with
    | .ok Node.dir => .error Errno.EISDIR
    | .ok (Node.file _) => .ok ((fs.prune old).put new (Node.file d))
    | .error Errno.ENOENT =>
      match fs.stat new.dropLast with
      | .ok Node.dir => .ok ((fs.prune old).put new (Node.file d))
      | .ok (Node.file _) => .error Errno.ENOTDIR
      | .error e => .error e
    | .error e => .error e
  | .ok Node.dir => .error Errno.EISDIR
  | .error e => .error e

end FS

/-! ## The standard library functions the code calls -/

structure Lib where
  /-- `json.NewEncoder(f).Encode(entry)` with the indentation of `Save`. -/
  jsonEncode : Entry → Except GoError Bytes
  /-- `json.Unmarshal(data, &entry)` into an `Entry`. -/
  jsonDecode : Bytes → Except GoError Entry
  /-- `json.Unmarshal(result, &payload)` into a `diveSummaryPayload`. -/
  unmarshalSummary : Bytes → Except GoError diveSummaryPayload
  /-- `sort.Slice(x, less)`: the slice afterwards. -/
  sortSlice : (Metadata → Metadata → Bool) → List Metadata → List Metadata
  /-- The file name `os.CreateTemp(dir, "entry-*.json")` settles on. -/
  tempName : FS → Path → String

/-- What is known of `sort.Slice`: the slice afterwards is a permutation of the
slice before, and no element is `less` than one that stands before it.  The
sort is not stable. -/
def Lib.SortOK (lib : Lib) (less : Metadata → Metadata → Bool) : Prop :=
  ∀ l : List Metadata,
    (lib.sortSlice less l).Perm l ∧
    (lib.sortSlice less l).Pairwise (fun a b => less b a = false)

/-- The new line that `json.Indent` writes at nesting depth `depth`, for the
empty prefix and the indentation of two blanks that `Save` sets. -/
def indentNewline (depth : Nat) : Bytes := 0x0A :: List.replicate (2 * depth) 0x20

/-- The escape `\u00XX` (resp. the byte itself) that the encoder writes for the
bytes `<`, `>` and `&` (resp. any other byte), HTML escaping being on. -/
def escapeHTMLByte (c : UInt8) : Bytes :=
  if c = 0x3C then [0x5C, 0x75, 0x30, 0x30, 0x33, 0x63]
  else if c = 0x3E then [0x5C, 0x75, 0x30, 0x30, 0x33, 0x65]
  else if c = 0x26 then [0x5C, 0x75, 0x30, 0x30, 0x32, 0x36]
  else [c]

/-- What the encoder of `encoding/json` does to the bytes a `json.RawMessage`
marshals to (`appendCompact` with HTML escaping): white space between the
tokens is dropped, `<`, `>`, `&` and the code points U+2028 and U+2029 are
written as `\u` escapes.  `inStr` and `esc` tell whether the byte stands in a
string and after a backslash. -/
def appendCompact : Bytes → Bool → Bool → Bytes
  | [], _, _ => []
  | 0xE2 :: 0x80 :: 0xA8 :: cs, inStr, _ =>
    [0x5C, 0x75, 0x32, 0x30, 0x32, 0x38] ++ appendCompact cs inStr false
  | 0xE2 :: 0x80 :: 0xA9 :: cs, inStr, _ =>
    [0x5C, 0x75, 0x32, 0x30, 0x32, 0x39] ++ appendCompact cs inStr false
  | c :: cs, true, true => escapeHTMLByte c ++ appendCompact cs true false
  | c :: cs, true, false =>
    if c = 0x5C then c :: appendCompact cs true true
    else if c = 0x22 then c :: appendCompact cs false false
    else escapeHTMLByte c ++ appendCompact cs true false
  | c :: cs, false, _ =>
    if c = 0x20 ∨ c = 0x09 ∨ c = 0x0A ∨ c = 0x0D then appendCompact cs false false
    else if c = 0x22 then c :: appendCompact cs true false
    else escapeHTMLByte c ++ appendCompact cs false false

/-- What `json.Indent` (`appendIndent`), which the encoder applies to the whole
document once `SetIndent` is called, does to a compacted value that starts at
nesting depth `depth`: a new line after `{`, `[` and `,`, a blank after `:`, a
new line before `}` and `]`, empty objects and arrays kept as `{}` and `[]`.
`need` tells that a new line is due after an opening bracket. -/
def appendIndent : Bytes → Nat → Bool → Bool → Bool → Bytes
  | [], _, _, _, _ => []
  | c :: cs, depth, need, true, true => c :: appendIndent cs depth need true false
  | c :: cs, depth, need, true, false =>
    if c = 0x5C then c :: appendIndent cs depth need true true
    else if c = 0x22 then c :: appendIndent cs depth need false false
    else c :: appendIndent cs depth need true false
  | c :: cs, depth, need, false, _ =>
    if c = 0x20 ∨ c = 0x09 ∨ c = 0x0A ∨ c = 0x0D then appendIndent cs depth need false false
    else if c = 0x7D ∨ c = 0x5D then
      if need then c :: appendIndent cs depth false false false
      else indentNewline (depth - 1) ++ c :: appendIndent cs (depth - 1) false false false
    else
      let depth1 := if need then depth + 1 else depth
      let pre : Bytes := if need then indentNewline (depth + 1) else []
      if c = 0x7B ∨ c = 0x5B then pre ++ c :: appendIndent cs depth1 true false false
      else if c = 0x2C then
        pre ++ c :: (indentNewline depth1 ++ appendIndent cs depth1 false false false)
      else if c = 0x3A then pre ++ c :: 0x20 :: appendIndent cs depth1 false false false
      else if c = 0x22 then pre ++ c :: appendIndent cs depth1 false true false
      else pre ++ c :: appendIndent cs depth1 false false false

/-- The bytes that stand for the payload `Result` in the document `Save`
writes, and that `json.Unmarshal` hands back as the `json.RawMessage`: the
payload compacted and then indented as a member of the outermost object. -/
def storedRaw (result : Bytes) : Bytes :=
  appendIndent (appendCompact result false false) 1 false false false

/-- What is known of the encoder and the decoder of `encoding/json` on an
`Entry` with a payload: the document that `Encode` writes decodes to the same
metadata, and to the payload as it stands in the document. -/
def Lib.JSONOK (lib : Lib) : Prop :=
  ∀ (e : Entry) (data : Bytes), e.Result ≠ [] → lib.jsonEncode e = .ok data →
    lib.jsonDecode data = .ok { Metadata := e.Metadata, Result := storedRaw e.Result }

/-- The closure `less` of `pruneLocked`: earlier completion first. -/
def lessBefore (a b : Metadata) : Bool := a.CompletedAt.Before b.CompletedAt

/-- The closure `less` of `List`: later completion first. -/
def lessAfter (a b : Metadata) : Bool := a.CompletedAt.After b.CompletedAt

/-! ## vm/history/store.go -/

def defaultMaxEntries : Nat := 50

def entryFileName : String := "entry.json"

def exportsDirName : String := "exports"

inductive StoreError where
  /-- The variable `ErrNotFound`. -/
  | ErrNotFound
  /-- An error of package `os`. -/
  | os (e : Errno)
  /-- An error of package `encoding/json`. -/
  | json (msg : GoError)
deriving DecidableEq, Repr

structure Store where
  dir : Path
  maxEntries : Nat
deriving DecidableEq, Repr

def NewStore (dir : Path) (maxEntries : Int) : Store :=
  { dir := dir
    maxEntries := if maxEntries ≤ 0 then defaultMaxEntries else maxEntries.toNat }

namespace Store

def BaseDir (s : Store) : Path := s.dir

def EntryDir (s : Store) (id : String) : Path := Join s.dir id

def EntryPath (s : Store) (id : String) : Path := Join (s.EntryDir id) entryFileName

def ExportsDir (s : Store) (id : String) : Path := Join (s.EntryDir id) exportsDirName

/-- The loop over the directory entries in `List` and `pruneLocked`: what is
not a directory, cannot be read or does not parse is skipped. -/
def scan (lib : Lib) (s : Store) (fs : FS) (entries : List (String × Bool)) : List Metadata :=
  entries.filterMap (fun entry =>
    if !entry.2 then none
    else
      match fs.ReadFile (s.EntryPath entry.1) with
      | .error _ => none
      | .ok data =>
        match lib.jsonDecode data with
        | .error _ => none
        | .ok parsed => some parsed.Metadata)

/-- The loop `for _, entry := range toDelete` of `pruneLocked`; the error of
`os.RemoveAll` is dropped. -/
def removeEntries (s : Store) (fs : FS) (toDelete : List Metadata) : FS :=
  toDelete.foldl (fun fs entry => (fs.RemoveAll (s.EntryDir entry.ID)).1) fs

def pruneLocked (lib : Lib) (s : Store) (fs : FS) : FS × Option StoreError :=
  match fs.ReadDir s.dir with
  | .error e => if IsNotExist e then (fs, none) else (fs, some (StoreError.os e))
  | .ok entries =>
    let metadata := s.scan lib fs entries
    if metadata.length ≤ s.maxEntries then (fs, none)
    else
      let sorted := lib.sortSlice lessBefore metadata
      let toDelete := sorted.take (metadata.length - s.maxEntries)
      (s.removeEntries fs toDelete, none)

/-- Method `Store.Save`: the state afterwards and the error returned. -/
def Save (lib : Lib) (s : Store) (fs : FS) (entry : Entry) : FS × Option StoreError :=
  match fs.MkdirAll s.dir with
  | .error e => (fs, some (StoreError.os e))
  | .ok fs1 =>
    let runDir := s.EntryDir entry.Metadata.ID
    match fs1.MkdirAll runDir with
    | .error e => (fs1, some (StoreError.os e))
    | .ok fs2 =>
      let tempFile := runDir ++ [lib.tempName fs2 runDir]
      let fs3 := fs2.put tempFile (Node.file [])
      match lib.jsonEncode entry with
      | .error msg => (fs3.prune tempFile, some (StoreError.json msg))
      | .ok data =>
        let fs4 := fs3.put tempFile (Node.file data)
        match fs4.Rename tempFile (s.EntryPath entry.Metadata.ID) with
        | .error e => (fs4, some (StoreError.os e))
        | .ok fs5 => s.pruneLocked lib fs5

def List (lib : Lib) (s : Store) (fs : FS) : Except StoreError (List Metadata) :=
  match fs.ReadDir s.dir with
  | .error e => if IsNotExist e then .ok [] else .error (StoreError.os e)
  | .ok entries =>
    .ok (lib.sortSlice lessAfter (s.scan lib fs entries))

def Get (lib : Lib) (s : Store) (fs : FS) (id : String) : Except StoreError Entry :=
  match fs.ReadFile (s.EntryPath id) with
  | .error e => if IsNotExist e then .error StoreError.ErrNotFound else .error (StoreError.os e)
  | .ok data =>
    match lib.jsonDecode data with
    | .error msg => .error (StoreError.json msg)
    | .ok entry => .ok entry

def Delete (s : Store) (fs : FS) (id : String) : FS × Option StoreError :=
  match fs.RemoveAll (s.EntryDir id) with
  | (fs1, some e) => (fs1, some (StoreError.os e))
  | (fs1, none) => (fs1, none)

def DeleteAll (s : Store) (fs : FS) : FS × Option StoreError :=
  match fs.RemoveAll s.dir with
  | (fs1, some e) => if IsNotExist e then (fs1, none) else (fs1, some (StoreError.os e))
  | (fs1, none) => (fs1, none)

end Store

/-! ## vm/main.go -/

def historyDir : Path := ["data", "history"]

def historyMaxEntries : Int := 50

abbrev JobStatus := String

def StatusQueued : JobStatus := "queued"

def StatusRunning : JobStatus := "running"

def StatusSucceeded : JobStatus := "succeeded"

def StatusFailed : JobStatus := "failed"

structure Job where
  ID : String
  Status : JobStatus
  Message : String
  Result : Bytes
  Source : String
  Target : String
  CreatedAt : Time
  CompletedAt : Time
deriving DecidableEq, Repr

/-- The map `jobs` of `JobStore`; the lock serialises the operations, which
are therefore functions of the table. -/
abbrev JobStore := String → Option Job

def NewJobStore : JobStore := fun _ => none

namespace JobStore

/-- Method `JobStore.Create`; `newJobID` is the identifier `newJobID()` drew
and `now` the reading of `time.Now()`. -/
def Create (s : JobStore) (newJobID : String) (now : Time) : Job × JobStore :=
  let job : Job :=
    { ID := newJobID
      Status := StatusQueued
      Message := ""
      Result := []
      Source := ""
      Target := ""
      CreatedAt := now
      CompletedAt := Time.zero }
  (job, fun id => if id = job.ID then some job else s id)

def Get (s : JobStore) (id : String) : Option Job := s id

def Update (s : JobStore) (id : String) (update : Job → Job) : JobStore × Bool :=
  match s id with
  | none => (s, false)
  | some job => (fun id' => if id' = id then some (update job) else s id', true)

end JobStore

structure AnalyzeRequest where
  Image : String
  Source : String
  ArchivePath : String
deriving DecidableEq, Repr

structure AnalyzeResponse where
  JobID : String
  Status : JobStatus
deriving DecidableEq, Repr

structure AnalysisStatusResponse where
  JobID : String
  Status : JobStatus
  Message : String
deriving DecidableEq, Repr

structure AnalysisErrorResponse where
  Status : JobStatus
  Message : String
deriving DecidableEq, Repr

/-- What a handler sends: the HTTP status with a JSON body, or with the raw
bytes of `c.JSONBlob`. -/
inductive Response where
  | analyze (code : Nat) (body : AnalyzeResponse)
  | status (code : Nat) (body : AnalysisStatusResponse)
  | error (code : Nat) (body : AnalysisErrorResponse)
  | blob (code : Nat) (data : Bytes)
deriving DecidableEq, Repr

def StatusOK : Nat := 200

def StatusAccepted : Nat := 202

def StatusBadRequest : Nat := 400

def StatusNotFound : Nat := 404

def StatusConflict : Nat := 409

def StatusInternalServerError : Nat := 500

def jsonError (status : Nat) (message : String) : Response :=
  Response.error status { Status := "", Message := message }

def resolveAnalyzeTarget (req : AnalyzeRequest) : Except GoError String :=
  if req.Source = "docker" then
    if TrimSpace req.Image = "" then
      .error "Image reference is required for Docker source"
    else .ok req.Image
  else if req.Source = "docker-archive" then
    if TrimSpace req.ArchivePath = "" then
      .error "Archive path is required for docker-archive source"
    else .ok req.ArchivePath
  else .error ("Unsupported source: " ++ req.Source)

/-- The unit of work `go runAnalyzeJob(jobID, req, target)` of a submission. -/
structure RunUnit where
  jobID : String
  req : AnalyzeRequest
  target : String
deriving DecidableEq, Repr

/-- Handler `analyzeImage`.  `bound` is the request `c.Bind` produced (`none`
when binding failed).  The result is the response, the job table the handler
leaves, from which the run unit starts, and the run unit that was started, if
any.  The handler starts the run unit before it reads `job.ID` and
`job.Status` for the response, through the pointer it shares with the table:
`ran` is what the run unit has written to the table by then, the identity when
it has not taken a step yet. -/
def analyzeImage (jobStore : JobStore) (bound : Option AnalyzeRequest)
    (newJobID : String) (now : Time) (ran : JobStore → JobStore) :
    Response × JobStore × Option RunUnit :=
  match bound with
  | none => (jsonError StatusBadRequest "Invalid analyze request payload", jobStore, none)
  | some req0 =>
    let src := TrimSpace req0.Source
    let req : AnalyzeRequest := { req0 with Source := if src = "" then "docker" else src }
    match resolveAnalyzeTarget req with
    | .error err => (jsonError StatusBadRequest err, jobStore, none)
    | .ok target =>
      let (job, js1) := jobStore.Create newJobID now
      let js2 := (js1.Update job.ID (fun job => { job with Source := req.Source, Target := target })).1
      let body : AnalyzeResponse := match (ran js2).Get job.ID with
        | some j => { JobID := j.ID, Status := j.Status }
        | none => { JobID := job.ID, Status := job.Status }
      (Response.analyze StatusAccepted body, js2,
        some { jobID := job.ID, req := req, target := target })

def getAnalysisStatus (jobStore : JobStore) (jobID : String) : Response :=
  match jobStore.Get jobID with
  | none => jsonError StatusNotFound "Analysis job not found"
  | some job =>
    Response.status StatusOK { JobID := job.ID, Status := job.Status, Message := job.Message }

def getAnalysisResult (jobStore : JobStore) (jobID : String) : Response :=
  match jobStore.Get jobID with
  | none => jsonError StatusNotFound "Analysis job not found"
  | some job =>
    if job.Status ≠ StatusSucceeded then
      let message := if job.Message = "" then "Analysis is not complete yet" else job.Message
      Response.error StatusConflict { Status := job.Status, Message := message }
    else if job.Result.length = 0 then
      Response.error StatusInternalServerError
        { Status := job.Status, Message := "Analysis result is empty" }
    else Response.blob StatusOK job.Result

/-- The variable `historyStore`. -/
def historyStore : Store := NewStore historyDir historyMaxEntries

/-- The state the run unit works on: the job table and the file system. -/
structure World where
  jobs : JobStore
  fs : FS

/-- Function `runAnalyzeJob`, as the states after each of its writes, in order.
`runDive` is the call of the external tool (its error is the message text),
`completedAt` the reading of `time.Now()` after it. -/
def runAnalyzeJobTrace (lib : Lib) (runDive : String → String → Except GoError Bytes)
    (completedAt : Time) (w : World) (jobID : String) (req : AnalyzeRequest)
    (target : String) : List World :=
  let js1 := (w.jobs.Update jobID
    (fun job => { job with Status := StatusRunning, Message := "" })).1
  match runDive req.Source target with
  | .error err =>
    let js2 := (js1.Update jobID
      (fun job => { job with Status := StatusFailed, Message := err })).1
    [{ w with jobs := js1 }, { w with jobs := js2 }]
  | .ok result =>
    let js2 := (js1.Update jobID
      (fun job =>
        { job with
          Status := StatusSucceeded
          Message := ""
          Result := result
          CompletedAt := completedAt })).1
    match js2.Get jobID with
    | none => [{ w with jobs := js1 }, { w with jobs := js2 }]
    | some job =>
      match NewEntry lib.unmarshalSummary job.ID job.Target job.Source job.CreatedAt
          job.CompletedAt job.Result with
      | .error _ => [{ w with jobs := js1 }, { w with jobs := js2 }]
      | .ok entry =>
        [{ w with jobs := js1 }, { w with jobs := js2 },
          { jobs := js2, fs := (historyStore.Save lib w.fs entry).1 }]

/-- Function `runAnalyzeJob`: the state when it returns. -/
def runAnalyzeJob (lib : Lib) (runDive : String → String → Except GoError Bytes)
    (completedAt : Time) (w : World) (jobID : String) (req : AnalyzeRequest)
    (target : String) : World :=
  (runAnalyzeJobTrace lib runDive completedAt w jobID req target).getLastD w

/-! ## vm/exports/exports.go -/

structure diveFileReference where
  Count : Int
  SizeBytes : Int
  File : String
deriving DecidableEq, Repr

/-- A `sort.Slice` on file references: the slice afterwards. -/
abbrev FileSort :=
  (diveFileReference → diveFileReference → Bool) → List diveFileReference → List diveFileReference

/-- What is known of `sort.Slice`, for file references: the slice afterwards is
a permutation of the slice before, and no element is `less` than one that
stands before it.  The sort is not stable. -/
def FileSort.OK (sortSlice : FileSort) (less : diveFileReference → diveFileReference → Bool) :
    Prop :=
  ∀ l : List diveFileReference,
    (sortSlice less l).Perm l ∧ (sortSlice less l).Pairwise (fun a b => less b a = false)

/-- The closure `less` of `topFileReferences`: larger size first. -/
def lessLarger (a b : diveFileReference) : Bool := decide (a.SizeBytes > b.SizeBytes)

/-- Function `topFileReferences`.  The first component is the slice `files` of
the caller when the function returns: the function writes to `ordered` only,
the copy it made.  The second is the result, `none` when the slice expression
`ordered[:limit]` panics, which it does for a negative `limit`. -/
def topFileReferences (sortSlice : FileSort) (files : List diveFileReference) (limit : Int) :
    List diveFileReference × Option (List diveFileReference) :=
  let ordered := files
  let ordered := sortSlice lessLarger ordered
  if (files.length : Int) > limit then
    if limit < 0 then (files, none)
    else (files, some (ordered.take limit.toNat))
  else (files, some ordered)

/-! ## Notions used in the statements -/

/-- The error of resolving a path at or below `p` once `p` is unbound: the
error of the walk to the directory of `p`, or `ENOENT` if that succeeds. -/
def FS.goneErr (fs : FS) (p : Path) : Errno :=
  match fs.stat p.dropLast with
  | .ok Node.dir => Errno.ENOENT
  | .ok (Node.file _) => Errno.ENOTDIR
  | .error e => e

/-- An identifier that is a single path element: not empty, not `.` or `..`,
and without a slash. -/
def SimpleName (id : String) : Prop :=
  id ≠ "" ∧ id ≠ "." ∧ id ≠ ".." ∧ '/' ∉ id.data

instance (id : String) : Decidable (SimpleName id) := by
  unfold SimpleName
  infer_instance

/-- The layout invariant of the store (spec, data model: "metadata.id equals
the directory key under which the entry is stored"): for every directory found
in the store directory, an entry file that can be read and parsed there carries
an identifier that names this directory. -/
def StoreInv (lib : Lib) (s : Store) (fs : FS) : Prop :=
  ∀ (name : String) (data : Bytes) (e : Entry),
    fs.stat (s.dir ++ [name]) = .ok Node.dir →
    fs.ReadFile (s.EntryPath name) = .ok data → lib.jsonDecode data = .ok e →
      s.EntryDir e.Metadata.ID = s.EntryDir name

/-- A check of the table that implies `StoreInv`: every parseable file named
`entry.json` lies in the directory its identifier names. -/
def StoreInvTable (lib : Lib) (s : Store) (fs : FS) : Bool :=
  fs.all (fun kv =>
    match kv.2 with
    | Node.dir => true
    | Node.file d =>
      match lib.jsonDecode d with
      | .error _ => true
      | .ok e =>
        !(decide (kv.1.getLast? = some entryFileName)) ||
          decide (s.EntryDir e.Metadata.ID = kv.1.dropLast))

/-- The store directory exists and holds exactly the entries `held`: every
name in it is the identifier of one of them, and each of them has, under its
identifier (a single path element), an entry file that parses to it. -/
def Holds (lib : Lib) (s : Store) (fs : FS) (held : List Metadata) : Prop :=
  fs.stat s.dir = .ok Node.dir ∧
  (∀ c n, fs.stat (s.dir ++ [c]) = .ok n → ∃ m ∈ held, m.ID = c) ∧
  (∀ m ∈ held, SimpleName m.ID ∧
    ∃ data e, fs.stat (s.dir ++ [m.ID, entryFileName]) = .ok (Node.file data) ∧
      lib.jsonDecode data = .ok e ∧ e.Metadata = m) ∧
  (held.map Metadata.ID).Nodup

/-- An initially empty store: the store directory does not exist yet, or it
exists and nothing is in it. -/
def EmptyStore (s : Store) (fs : FS) : Prop :=
  fs.stat s.dir = .error Errno.ENOENT ∨
  (fs.stat s.dir = .ok Node.dir ∧ ∀ c, fs.stat (s.dir ++ [c]) = .error Errno.ENOENT)

/-- Save the entries one after another: the state at the end and what each
`Save` returned. -/
def saveAll (lib : Lib) (s : Store) : FS → List Entry → FS × List (Option StoreError)
  | fs, [] => (fs, [])
  | fs, e :: es =>
    ((saveAll lib s (s.Save lib fs e).1 es).1,
      (s.Save lib fs e).2 :: (saveAll lib s (s.Save lib fs e).1 es).2)

/-- The job table once the run unit of a submission, started on the table
`jobs`, has done its first `n` writes (all of them, when it does fewer). -/
def runUnitProgress (lib : Lib) (runDive : String → String → Except GoError Bytes)
    (completedAt : Time) (fs : FS) (unit : RunUnit) (n : Nat) (jobs : JobStore) : JobStore :=
  (((runAnalyzeJobTrace lib runDive completedAt { jobs := jobs, fs := fs }
      unit.jobID unit.req unit.target).take n).getLastD { jobs := jobs, fs := fs }).jobs

/-! ## Sample data -/

/-- A job table holding one freshly created job. -/
def queuedJobs : JobStore := (NewJobStore.Create "j1" 100).2

/-- The report of the end-to-end scenario, as bytes. -/
def sampleReport : Bytes := [0x7b, 0x7d]

/-- An analysis tool that always succeeds with `sampleReport`. -/
def diveSucceeds : String → String → Except GoError Bytes := fun _ _ => .ok sampleReport

/-- An analysis tool that always fails. -/
def diveFails : String → String → Except GoError Bytes :=
  fun _ _ => .error "Dive failed: no such image"

def sampleRequest : AnalyzeRequest :=
  { Image := "alpine:latest", Source := "docker", ArchivePath := "" }

def entryA : Entry :=
  { Metadata :=
      { ID := "a", Image := "alpine:latest", Source := "docker", CreatedAt := 1
        CompletedAt := 10, Summary := ⟨100, 10, ⟨0⟩⟩ }
    Result := sampleReport }

def entryB : Entry :=
  { Metadata :=
      { ID := "b", Image := "busybox:latest", Source := "docker", CreatedAt := 2
        CompletedAt := 20, Summary := ⟨100, 10, ⟨0⟩⟩ }
    Result := sampleReport }

def entryC : Entry :=
  { Metadata :=
      { ID := "c", Image := "debian:stable", Source := "docker", CreatedAt := 3
        CompletedAt := 30, Summary := ⟨100, 10, ⟨0⟩⟩ }
    Result := sampleReport }

/-- An entry whose identifier is the empty string. -/
def entryD : Entry :=
  { Metadata :=
      { ID := "", Image := "debian:stable", Source := "docker", CreatedAt := 4
        CompletedAt := 40, Summary := ⟨100, 10, ⟨0⟩⟩ }
    Result := sampleReport }

/-- The payload `{"a":1}`. -/
def samplePayload : Bytes := [0x7B, 0x22, 0x61, 0x22, 0x3A, 0x31, 0x7D]

/-- An entry whose payload is an object with a member. -/
def entryE : Entry :=
  { Metadata :=
      { ID := "e", Image := "alpine:edge", Source := "docker", CreatedAt := 5
        CompletedAt := 50, Summary := ⟨100, 10, ⟨0⟩⟩ }
    Result := samplePayload }

/-- A library instance for the sample data: the five sample entries have one
document each, which decodes to the metadata and the payload as stored; the
sample report parses; sorting is by insertion. -/
def sampleLib : Lib where
  jsonEncode e :=
    if e = entryA then .ok [0x41]
    else if e = entryB then .ok [0x42]
    else if e = entryC then .ok [0x43]
    else if e = entryD then .ok [0x44]
    else if e = entryE then .ok [0x45]
    else .error "json: unsupported value"
  jsonDecode b :=
    if b = [0x41] then .ok entryA
    else if b = [0x42] then .ok entryB
    else if b = [0x43] then .ok entryC
    else if b = [0x44] then .ok entryD
    else if b = [0x45] then .ok { entryE with Result := storedRaw entryE.Result }
    else .error "invalid character"
  unmarshalSummary b :=
    if b = sampleReport then .ok ⟨⟨100, 10, ⟨0⟩⟩⟩ else .error "invalid character"
  sortSlice less l := l.insertionSort (fun a b => less b a = false)
  tempName _ _ := "entry-1.json"

/-- A store of capacity one in the history directory. -/
def smallStore : Store := NewStore historyDir 1

/-- The file system after saving `entryA` into an empty one. -/
def fsA : FS := (historyStore.Save sampleLib [] entryA).1

/-- The file system after saving `entryA` and then `entryB`. -/
def fsAB : FS := (historyStore.Save sampleLib fsA entryB).1

/-- The file system after saving `entryB` into an empty one, capacity one. -/
def fsB : FS := (smallStore.Save sampleLib [] entryB).1

/-- Sorting file references by insertion. -/
def insertionFileSort : FileSort := fun less l => l.insertionSort (fun a b => less b a = false)

def sampleFiles : List diveFileReference :=
  [{ Count := 1, SizeBytes := 10, File := "/bin/a" },
   { Count := 2, SizeBytes := 30, File := "/bin/b" },
   { Count := 1, SizeBytes := 20, File := "/bin/c" }]

/-! ## Theorems -/

theorem all_dropWhile {α : Type} (p : α → Bool) (l : List α)
    (h : ∀ x ∈ l.dropWhile p, p x = true) : ∀ x ∈ l, p x = true := by
  induction l with
  | nil => simp
  | cons a t ih =>
    by_cases ha : p a = true
    · rw [List.dropWhile_cons_of_pos ha] at h
      intro x hx
      rcases List.mem_cons.mp hx with rfl | hx
      · exact ha
      · exact ih h x hx
    · rw [List.dropWhile_cons_of_neg ha] at h
      exact h

theorem TrimSpace_eq_empty (s : String) : TrimSpace s = "" ↔ isBlank s = true := by
  unfold TrimSpace isBlank
  rw [List.all_eq_true]
  constructor
  · intro h
    have h1 : ((s.data.dropWhile isSpace).reverse.dropWhile isSpace).reverse = [] := by
      have := congrArg String.data h
      simpa using this
    rw [List.reverse_eq_nil_iff, List.dropWhile_eq_nil_iff] at h1
    apply all_dropWhile
    intro x hx
    exact h1 x (List.mem_reverse.mpr hx)
  · intro h
    have h1 : s.data.dropWhile isSpace = [] := List.dropWhile_eq_nil_iff.mpr h
    rw [h1]
    rfl

/-- C5: target resolution succeeds exactly for source `docker` with a
non-blank image reference or source `docker-archive` with a non-blank archive
path; the target is then the image reference (resp. the archive path) as given;
and when resolution fails in `analyzeImage` the handler answers 400 with the
error text, leaves the job table unchanged and starts no run unit. -/
theorem C5_resolveAnalyzeTarget_validation :
    (∀ req : AnalyzeRequest,
      ((∃ target, resolveAnalyzeTarget req = .ok target) ↔
        ((req.Source = "docker" ∧ isBlank req.Image = false) ∨
          (req.Source = "docker-archive" ∧ isBlank req.ArchivePath = false))) ∧
      (∀ target, resolveAnalyzeTarget req = .ok target →
        (req.Source = "docker" → target = req.Image) ∧
        (req.Source = "docker-archive" → target = req.ArchivePath))) ∧
    (∀ (jobStore : JobStore) (req0 : AnalyzeRequest) (newJobID : String) (now : Time)
        (ran : JobStore → JobStore) (err : GoError),
      resolveAnalyzeTarget
          { req0 with
            Source := if TrimSpace req0.Source = "" then "docker" else TrimSpace req0.Source }
        = .error err →
      analyzeImage jobStore (some req0) newJobID now ran
        = (jsonError StatusBadRequest err, jobStore, none)) := by
  refine ⟨fun req => ⟨?_, ?_⟩, ?_⟩
  · unfold resolveAnalyzeTarget
    by_cases h1 : req.Source = "docker"
    · have h2 : req.Source ≠ "docker-archive" := by rw [h1]; decide
      by_cases hb : isBlank req.Image = true
      · have := (TrimSpace_eq_empty req.Image).mpr hb
        simp [h1, this, hb]
      · have ht : ¬ TrimSpace req.Image = "" := fun h => hb ((TrimSpace_eq_empty _).mp h)
        simp [h1, ht, hb]
    · by_cases h2 : req.Source = "docker-archive"
      · by_cases hb : isBlank req.ArchivePath = true
        · have := (TrimSpace_eq_empty req.ArchivePath).mpr hb
          simp [h2, this, hb]
        · have ht : ¬ TrimSpace req.ArchivePath = "" :=
            fun h => hb ((TrimSpace_eq_empty _).mp h)
          simp [h2, ht, hb]
      · simp [h1, h2]
  · intro target h
    unfold resolveAnalyzeTarget at h
    constructor
    · intro h1
      rw [if_pos h1] at h
      split at h
      · cases h
      · cases h; rfl
    · intro h2
      have h1 : req.Source ≠ "docker" := by rw [h2]; decide
      rw [if_neg h1, if_pos h2] at h
      split at h
      · cases h
      · cases h; rfl
  · intro jobStore req0 newJobID now ran err h
    simp only [analyzeImage, h]

/-- C7, as stated, fails: for a queued job, whose message is empty, the
conflict response does not carry the empty message but a fixed text. -/
theorem C7_counterexample_empty_message :
    (queuedJobs.Get "j1").map Job.Status = some StatusQueued ∧
    (queuedJobs.Get "j1").map Job.Message = some "" ∧
    getAnalysisResult queuedJobs "j1"
      ≠ Response.error StatusConflict { Status := StatusQueued, Message := "" } ∧
    getAnalysisResult queuedJobs "j1"
      = Response.error StatusConflict
          { Status := StatusQueued, Message := "Analysis is not complete yet" } := by
  decide

/-- C7, amended: the result query answers 404 for an unknown id; 409 with the
job's status and its message, or the text "Analysis is not complete yet" when
that message is empty, when the status is not succeeded; 500 when the status
is succeeded and the payload is empty; and otherwise the payload of the record.
A payload is returned only for a record whose status is succeeded. -/
theorem C7_getAnalysisResult_cases (jobStore : JobStore) (jobID : String) :
    (jobStore.Get jobID = none →
      getAnalysisResult jobStore jobID = jsonError StatusNotFound "Analysis job not found") ∧
    (∀ job, jobStore.Get jobID = some job → job.Status ≠ StatusSucceeded →
      getAnalysisResult jobStore jobID
        = Response.error StatusConflict
            { Status := job.Status
              Message :=
                if job.Message = "" then "Analysis is not complete yet" else job.Message }) ∧
    (∀ job, jobStore.Get jobID = some job → job.Status = StatusSucceeded → job.Result = [] →
      getAnalysisResult jobStore jobID
        = Response.error StatusInternalServerError
            { Status := job.Status, Message := "Analysis result is empty" }) ∧
    (∀ job, jobStore.Get jobID = some job → job.Status = StatusSucceeded → job.Result ≠ [] →
      getAnalysisResult jobStore jobID = Response.blob StatusOK job.Result) ∧
    (∀ code data, getAnalysisResult jobStore jobID = Response.blob code data →
      ∃ job, jobStore.Get jobID = some job ∧ job.Status = StatusSucceeded ∧
        job.Result = data ∧ data ≠ []) := by
  refine ⟨?_, ?_, ?_, ?_, ?_⟩
  · intro h
    simp [getAnalysisResult, h]
  · intro job h hs
    simp [getAnalysisResult, h, hs]
  · intro job h hs hr
    simp [getAnalysisResult, h, hs, hr]
  · intro job h hs hr
    simp [getAnalysisResult, h, hs, hr]
  · intro code data h
    unfold getAnalysisResult at h
    cases hj : jobStore.Get jobID with
    | none => simp [hj, jsonError] at h
    | some job =>
      simp only [hj] at h
      by_cases hs : job.Status = StatusSucceeded
      · by_cases hr : job.Result = []
        · simp [hs, hr] at h
        · simp [hs, hr] at h
          exact ⟨job, rfl, hs, h.2, h.2 ▸ hr⟩
      · simp [hs] at h

/-- C8: `NewEntry` fails exactly when the payload is empty or does not parse
as the summary structure; when it succeeds the metadata carries the given id,
image, source, start time (as `CreatedAt`) and completion time, the summary
holds the three `image` values of the parsed payload, and `Result` is the
payload unchanged. -/
theorem C8_NewEntry_spec (unmarshalSummary : Bytes → Except GoError diveSummaryPayload)
    (id image source : String) (startedAt completedAt : Time) (result : Bytes) :
    ((∃ err, NewEntry unmarshalSummary id image source startedAt completedAt result
        = .error err) ↔
      (result = [] ∨ ∃ err, unmarshalSummary result = .error err)) ∧
    (∀ entry, NewEntry unmarshalSummary id image source startedAt completedAt result
        = .ok entry →
      ∃ payload, unmarshalSummary result = .ok payload ∧ result ≠ [] ∧
        entry.Metadata.ID = id ∧ entry.Metadata.Image = image ∧
        entry.Metadata.Source = source ∧ entry.Metadata.CreatedAt = startedAt ∧
        entry.Metadata.CompletedAt = completedAt ∧
        entry.Metadata.Summary.SizeBytes = payload.Image.SizeBytes ∧
        entry.Metadata.Summary.InefficientBytes = payload.Image.InefficientBytes ∧
        entry.Metadata.Summary.EfficiencyScore = payload.Image.EfficiencyScore ∧
        entry.Result = result) := by
  unfold NewEntry
  by_cases hr : result = []
  · subst hr
    simp
  · have hl : ¬ result.length = 0 := fun h => hr (List.length_eq_zero.mp h)
    cases hu : unmarshalSummary result with
    | error err => simp [hl, hr]
    | ok payload =>
      simp only [hl, hr, if_false, false_or]
      constructor
      · simp
      · intro entry h
        cases h
        exact ⟨payload, rfl, hr, rfl, rfl, rfl, rfl, rfl, rfl, rfl, rfl, rfl⟩

/-! ### The file system: bindings and resolution -/

theorem FS.node_nil (fs : FS) : fs.node [] = some Node.dir := by
  cases fs <;> rfl

theorem FS.node_cons (q : Path) (n : Node) (fs : FS) (p : Path) (hp : p ≠ []) :
    FS.node ((q, n) :: fs) p = if q = p then some n else FS.node fs p := by
  cases p with
  | nil => exact absurd rfl hp
  | cons c cs => rfl

theorem FS.node_filter (fs : FS) (f : Path → Bool) (p : Path) (hp : p ≠ []) :
    FS.node (fs.filter (fun kv => f kv.1)) p = if f p = true then FS.node fs p else none := by
  induction fs with
  | nil =>
    cases p with
    | nil => exact absurd rfl hp
    | cons c cs => simp [FS.node]
  | cons kv fs ih =>
    obtain ⟨q, n⟩ := kv
    by_cases hf : f q = true
    · rw [List.filter_cons_of_pos (by simpa using hf), FS.node_cons _ _ _ _ hp,
        FS.node_cons _ _ _ _ hp, ih]
      by_cases hq : q = p
      · subst hq; simp [hf]
      · simp [hq]
    · rw [List.filter_cons_of_neg (by simpa using hf), FS.node_cons _ _ _ _ hp, ih]
      by_cases hq : q = p
      · subst hq; simp [hf]
      · simp [hq]

theorem FS.node_prune (fs : FS) (p q : Path) (hq : q ≠ []) :
    (fs.prune p).node q = if p <+: q then none else fs.node q := by
  have h := FS.node_filter fs (fun k => !(p.isPrefixOf k)) q hq
  unfold FS.prune
  rw [h]
  by_cases hpq : p <+: q
  · simp [hpq, List.isPrefixOf_iff_prefix.mpr hpq]
  · have : p.isPrefixOf q = false := by
      rw [Bool.eq_false_iff]
      exact fun h => hpq (List.isPrefixOf_iff_prefix.mp h)
    simp [hpq, this]

theorem FS.node_put (fs : FS) (p : Path) (n : Node) (q : Path) (hq : q ≠ []) :
    (fs.put p n).node q = if q = p then some n else fs.node q := by
  unfold FS.put
  rw [FS.node_cons _ _ _ _ hq]
  by_cases h : p = q
  · subst h; simp
  · have h' : ¬ q = p := fun e => h e.symm
    have := FS.node_filter fs (fun k => decide (k ≠ p)) q hq
    rw [if_neg h, if_neg h', this]
    simp [h']

theorem FS.stat_nil (fs : FS) : fs.stat [] = .ok Node.dir := by
  simp [FS.stat, FS.walk, FS.node_nil]

theorem FS.walk_snoc (fs : FS) (pre rest : Path) (c : String) :
    fs.walk pre (rest ++ [c]) =
      match fs.walk pre rest with
      | .ok Node.dir =>
        (match fs.node (pre ++ rest ++ [c]) with
          | some n => .ok n
          | none => .error Errno.ENOENT)
      | .ok (Node.file _) => .error Errno.ENOTDIR
      | .error e => .error e := by
  induction rest generalizing pre with
  | nil =>
    simp only [List.nil_append, List.append_nil, FS.walk]
    cases h : fs.node pre with
    | none => rfl
    | some n => cases n <;> rfl
  | cons a rest ih =>
    simp only [List.cons_append, FS.walk]
    cases h : fs.node pre with
    | none => rfl
    | some n =>
      cases n with
      | file d => rfl
      | dir =>
        have e := ih (pre ++ [a])
        simp only [List.append_assoc, List.singleton_append] at e
        simpa using e

theorem FS.stat_snoc (fs : FS) (p : Path) (c : String) :
    fs.stat (p ++ [c]) =
      match fs.stat p with
      | .ok Node.dir =>
        (match fs.node (p ++ [c]) with
          | some n => .ok n
          | none => .error Errno.ENOENT)
      | .ok (Node.file _) => .error Errno.ENOTDIR
      | .error e => .error e := by
  have := FS.walk_snoc fs [] p c
  simpa [FS.stat] using this

theorem FS.stat_append_of_error (fs : FS) (p : Path) (e : Errno)
    (h : fs.stat p = .error e) (r : Path) : fs.stat (p ++ r) = .error e := by
  induction r using List.reverseRecOn with
  | nil => simpa using h
  | append_singleton r c ih =>
    rw [← List.append_assoc, FS.stat_snoc, ih]

theorem FS.stat_append_of_file (fs : FS) (p : Path) (d : Bytes)
    (h : fs.stat p = .ok (Node.file d)) (r : Path) (hr : r ≠ []) :
    fs.stat (p ++ r) = .error Errno.ENOTDIR := by
  induction r using List.reverseRecOn with
  | nil => exact absurd rfl hr
  | append_singleton r c ih =>
    rw [← List.append_assoc, FS.stat_snoc]
    by_cases h0 : r = []
    · subst h0
      simp [h]
    · rw [ih h0]

theorem FS.stat_dir_of_append (fs : FS) (p r : Path) (n : Node) (hr : r ≠ [])
    (h : fs.stat (p ++ r) = .ok n) : fs.stat p = .ok Node.dir := by
  cases hp : fs.stat p with
  | error e => rw [FS.stat_append_of_error fs p e hp r] at h; cases h
  | ok m =>
    cases m with
    | dir => rfl
    | file d => rw [FS.stat_append_of_file fs p d hp r hr] at h; cases h

theorem FS.stat_prune (fs : FS) (p : Path) (hp : p ≠ []) (q : Path) :
    (fs.prune p).stat q = if p <+: q then .error (fs.goneErr p) else fs.stat q := by
  induction q using List.reverseRecOn with
  | nil =>
    have : ¬ p <+: [] := fun h => hp (List.prefix_nil.mp h)
    simp [this, FS.stat_nil]
  | append_singleton q c ih =>
    rw [FS.stat_snoc, ih, FS.node_prune _ _ _ (by simp)]
    by_cases h1 : p <+: q ++ [c]
    · simp only [h1, if_true]
      rcases List.prefix_concat_iff.mp h1 with h2 | h2
      · have h3 : ¬ p <+: q := by
          intro h
          have := h.length_le
          rw [h2] at this
          simp at this
        have h4 : p.dropLast = q := by rw [h2]; simp
        simp only [h3, if_false]
        unfold FS.goneErr
        rw [h4]
        cases hs : fs.stat q with
        | error e => rfl
        | ok m => cases m <;> rfl
      · simp only [h2, if_true]
    · have h2 : ¬ p <+: q := fun h => h1 (List.prefix_concat_iff.mpr (Or.inr h))
      simp only [h1, h2, if_false]
      rw [FS.stat_snoc]

theorem FS.stat_put_elsewhere (fs : FS) (p : Path) (n : Node) (q : Path)
    (h : ¬ p <+: q) : (fs.put p n).stat q = fs.stat q := by
  induction q using List.reverseRecOn with
  | nil => simp [FS.stat_nil]
  | append_singleton q c ih =>
    have h2 : ¬ p <+: q := fun h' => h (List.prefix_concat_iff.mpr (Or.inr h'))
    have h3 : ¬ q ++ [c] = p := fun e => h (e ▸ List.prefix_refl _)
    rw [FS.stat_snoc, ih h2, FS.node_put _ _ _ _ (by simp), if_neg h3, FS.stat_snoc]

theorem FS.stat_put_self (fs : FS) (p : Path) (n : Node) (hp : p ≠ [])
    (h : fs.stat p.dropLast = .ok Node.dir) : (fs.put p n).stat p = .ok n := by
  obtain ⟨q, c, rfl⟩ : ∃ q c, p = q ++ [c] := by
    rcases List.eq_nil_or_concat p with h0 | ⟨q, c, h0⟩
    · exact absurd h0 hp
    · exact ⟨q, c, by simpa using h0⟩
  have h3 : ¬ q ++ [c] <+: q := by
    intro h'
    have := h'.length_le
    simp at this
  rw [List.dropLast_concat] at h
  rw [FS.stat_snoc, FS.stat_put_elsewhere _ _ _ _ h3, h, FS.node_put _ _ _ _ (by simp)]
  simp

theorem FS.stat_below_new_dir (fs : FS) (p : Path) (hp : p ≠ [])
    (h : fs.stat p.dropLast = .ok Node.dir) (r : Path) (hr : r ≠ []) :
    ((fs.prune p).put p Node.dir).stat (p ++ r) = .error Errno.ENOENT := by
  have hself : ((fs.prune p).put p Node.dir).stat p = .ok Node.dir := by
    apply FS.stat_put_self _ _ _ hp
    rw [FS.stat_prune _ _ hp, if_neg, h]
    intro h'
    have h1 := h'.length_le
    have h2 : p.dropLast.length < p.length := by
      rw [List.length_dropLast]
      exact Nat.sub_lt (List.length_pos.mpr hp) Nat.one_pos
    omega
  induction r using List.reverseRecOn with
  | nil => exact absurd rfl hr
  | append_singleton r c ih =>
    rw [← List.append_assoc, FS.stat_snoc]
    by_cases h0 : r = []
    · subst h0
      have hne : ¬ p ++ [c] = p := by
        intro e
        have := congrArg List.length e
        simp at this
      rw [List.append_nil, hself, FS.node_put _ _ _ _ (by simp), if_neg hne,
        FS.node_prune _ _ _ (by simp), if_pos (List.prefix_append _ _)]
    · rw [ih h0]

theorem FS.stat_empty (q : Path) (hq : q ≠ []) :
    FS.stat ([] : FS) q = .error Errno.ENOENT := by
  induction q using List.reverseRecOn with
  | nil => exact absurd rfl hq
  | append_singleton q c ih =>
    rw [FS.stat_snoc]
    by_cases h0 : q = []
    · subst h0
      simp [FS.stat_nil, FS.node]
    · rw [ih h0]

theorem FS.node_of_stat (fs : FS) (q : Path) (n : Node) (h : fs.stat q = .ok n) :
    fs.node q = some n := by
  induction q using List.reverseRecOn with
  | nil =>
    rw [FS.stat_nil] at h
    cases h
    exact FS.node_nil fs
  | append_singleton q c _ =>
    rw [FS.stat_snoc] at h
    cases hs : fs.stat q with
    | error e => rw [hs] at h; cases h
    | ok m =>
      rw [hs] at h
      cases m with
      | file d => cases h
      | dir =>
        cases hn : fs.node (q ++ [c]) with
        | none => rw [hn] at h; cases h
        | some k => rw [hn] at h; cases h; rfl

theorem FS.mem_of_node (fs : FS) (q : Path) (n : Node) (hq : q ≠ [])
    (h : fs.node q = some n) : (q, n) ∈ fs := by
  induction fs with
  | nil =>
    cases q with
    | nil => exact absurd rfl hq
    | cons c cs => simp [FS.node] at h
  | cons kv fs ih =>
    obtain ⟨k, m⟩ := kv
    rw [FS.node_cons _ _ _ _ hq] at h
    by_cases hk : k = q
    · rw [if_pos hk] at h
      cases h
      subst hk
      exact List.mem_cons_self _ _
    · rw [if_neg hk] at h
      exact List.mem_cons_of_mem _ (ih h)

theorem FS.ReadFile_eq_ok (fs : FS) (q : Path) (d : Bytes) :
    fs.ReadFile q = .ok d ↔ fs.stat q = .ok (Node.file d) := by
  unfold FS.ReadFile
  cases hs : fs.stat q with
  | error e => simp
  | ok m =>
    cases m with
    | dir => simp
    | file d' =>
      simp only [Except.ok.injEq, Node.file.injEq]

theorem FS.ReadFile_eq_error (fs : FS) (q : Path) (e : Errno)
    (h : fs.stat q = .error e) : fs.ReadFile q = .error e := by
  simp [FS.ReadFile, h]

/-! ### Paths of the store -/

theorem Join_entryFileName (x : Path) : Join x entryFileName = x ++ [entryFileName] := by
  have h : splitSlash entryFileName = [entryFileName] := by decide
  unfold Join
  rw [h]
  simp only [List.foldl_cons, List.foldl_nil, cleanStep]
  rw [if_neg (by decide), if_neg (by decide)]

theorem Join_exportsDirName (x : Path) : Join x exportsDirName = x ++ [exportsDirName] := by
  have h : splitSlash exportsDirName = [exportsDirName] := by decide
  unfold Join
  rw [h]
  simp only [List.foldl_cons, List.foldl_nil, cleanStep]
  rw [if_neg (by decide), if_neg (by decide)]

theorem Store.EntryPath_eq (s : Store) (id : String) :
    s.EntryPath id = s.EntryDir id ++ [entryFileName] :=
  Join_entryFileName _

theorem Store.ExportsDir_eq (s : Store) (id : String) :
    s.ExportsDir id = s.EntryDir id ++ [exportsDirName] :=
  Join_exportsDirName _

/-! ### os.RemoveAll -/

theorem FS.RemoveAll_gone (fs : FS) (p : Path) (h : (fs.RemoveAll p).2 = none) (r : Path) :
    (fs.RemoveAll p).1.stat (p ++ r) = .error Errno.ENOENT := by
  cases p with
  | nil => simp [FS.RemoveAll] at h
  | cons c cs =>
    have hp : c :: cs ≠ [] := by simp
    unfold FS.RemoveAll at h ⊢
    cases hs : fs.stat (c :: cs).dropLast with
    | error e =>
      simp only [hs] at h ⊢
      cases e <;> simp [IsNotExist] at h ⊢
      have := FS.stat_append_of_error fs _ _ hs ([(c :: cs).getLast hp] ++ r)
      rwa [← List.append_assoc, List.dropLast_append_getLast] at this
    | ok m =>
      cases m with
      | file d => simp [hs] at h
      | dir =>
        simp only [hs]
        rw [FS.stat_prune _ _ hp, if_pos (List.prefix_append _ _)]
        simp [FS.goneErr, hs]

theorem FS.RemoveAll_stat_mono (fs : FS) (p q : Path) (n : Node) (hq : q ≠ [])
    (h : (fs.RemoveAll p).1.stat q = .ok n) : fs.stat q = .ok n ∧ ¬ p <+: q := by
  cases p with
  | nil =>
    simp only [FS.RemoveAll] at h
    rw [FS.stat_empty q hq] at h
    cases h
  | cons c cs =>
    have hp : c :: cs ≠ [] := by simp
    unfold FS.RemoveAll at h
    cases hs : fs.stat (c :: cs).dropLast with
    | error e =>
      simp only [hs] at h
      have h' : fs.stat q = .ok n := by
        cases e <;> simpa [IsNotExist] using h
      refine ⟨h', ?_⟩
      rintro ⟨r, rfl⟩
      have := FS.stat_append_of_error fs _ _ hs ([(c :: cs).getLast hp] ++ r)
      rw [← List.append_assoc, List.dropLast_append_getLast] at this
      rw [this] at h'
      cases h'
    | ok m =>
      cases m with
      | file d =>
        simp only [hs] at h
        refine ⟨h, ?_⟩
        rintro ⟨r, rfl⟩
        have := FS.stat_append_of_file fs _ _ hs ([(c :: cs).getLast hp] ++ r) (by simp)
        rw [← List.append_assoc, List.dropLast_append_getLast] at this
        rw [this] at h
        cases h
      | dir =>
        simp only [hs] at h
        rw [FS.stat_prune _ _ hp] at h
        by_cases hpq : c :: cs <+: q
        · rw [if_pos hpq] at h; cases h
        · rw [if_neg hpq] at h; exact ⟨h, hpq⟩

/-- The record a successful submission leaves in the job table. -/
theorem analyzeImage_record (jobStore : JobStore) (bound : Option AnalyzeRequest)
    (newJobID : String) (now : Time) (ran : JobStore → JobStore) (unit : RunUnit)
    (h : (analyzeImage jobStore bound newJobID now ran).2.2 = some unit) :
    unit.jobID = newJobID ∧
    (analyzeImage jobStore bound newJobID now ran).2.1 newJobID
      = some
          { ID := newJobID, Status := StatusQueued, Message := "", Result := []
            Source := unit.req.Source, Target := unit.target, CreatedAt := now
            CompletedAt := Time.zero } := by
  unfold analyzeImage at h ⊢
  cases bound with
  | none => simp at h
  | some req0 =>
    simp only at h ⊢
    split at h
    · simp at h
    · rename_i target ht
      simp only [ht]
      simp only [JobStore.Create, JobStore.Update, if_true, Option.some.injEq] at h ⊢
      subst h
      simp

/-- C6: for a job created by a submission, the statuses its record takes, from
the submission through every write of the run unit, are queued, running and
then one terminal status, which later writes leave in place. -/
theorem C6_status_sequence (lib : Lib) (runDive : String → String → Except GoError Bytes)
    (completedAt : Time) (fs : FS) (jobStore : JobStore) (bound : Option AnalyzeRequest)
    (newJobID : String) (now : Time) (ran : JobStore → JobStore) (unit : RunUnit)
    (h : (analyzeImage jobStore bound newJobID now ran).2.2 = some unit) :
    let js := (analyzeImage jobStore bound newJobID now ran).2.1
    let statuses :=
      (js :: (runAnalyzeJobTrace lib runDive completedAt { jobs := js, fs := fs }
          unit.jobID unit.req unit.target).map World.jobs).map
        (fun t => (t unit.jobID).map Job.Status)
    statuses = [some StatusQueued, some StatusRunning, some StatusFailed] ∨
    statuses = [some StatusQueued, some StatusRunning, some StatusSucceeded] ∨
    statuses
      = [some StatusQueued, some StatusRunning, some StatusSucceeded, some StatusSucceeded] := by
  obtain ⟨hid, hrec⟩ := analyzeImage_record jobStore bound newJobID now ran unit h
  intro js statuses
  have hjs : js newJobID = _ := hrec
  subst hid
  simp only [statuses, runAnalyzeJobTrace, JobStore.Update, JobStore.Get, hjs]
  cases hd : runDive unit.req.Source unit.target with
  | error err => left; simp [hjs]
  | ok result =>
    simp only [if_true]
    split
    · right; left; simp [hjs]
    · right; right; simp [hjs]

theorem C6_status_sequence_witness :
    (analyzeImage NewJobStore (some sampleRequest) "j1" 100 id).2.2
      = some { jobID := "j1", req := sampleRequest, target := "alpine:latest" } ∧
    (let js := (analyzeImage NewJobStore (some sampleRequest) "j1" 100 id).2.1
     let statuses :=
      (js :: (runAnalyzeJobTrace sampleLib diveSucceeds 200 { jobs := js, fs := [] }
          "j1" sampleRequest "alpine:latest").map World.jobs).map
        (fun t => (t "j1").map Job.Status)
     statuses = [some StatusQueued, some StatusRunning, some StatusFailed] ∨
     statuses = [some StatusQueued, some StatusRunning, some StatusSucceeded] ∨
     statuses
      = [some StatusQueued, some StatusRunning, some StatusSucceeded,
          some StatusSucceeded]) :=
  ⟨by decide,
    C6_status_sequence sampleLib diveSucceeds 200 [] NewJobStore (some sampleRequest) "j1" 100 id
      { jobID := "j1", req := sampleRequest, target := "alpine:latest" } (by decide)⟩

/-- C9: for a job created by a submission, when the tool invocation returns an
error the run unit ends with the record in status failed, its message the
error text, no payload and `CompletedAt` unset, and no state of the run has a
file system other than the initial one; when the invocation succeeds the
record ends in status succeeded with the payload and the completion time,
whatever `Save` returned. -/
theorem C9_history_on_success_only (lib : Lib)
    (runDive : String → String → Except GoError Bytes)
    (completedAt : Time) (fs : FS) (jobStore : JobStore) (bound : Option AnalyzeRequest)
    (newJobID : String) (now : Time) (ran : JobStore → JobStore) (unit : RunUnit)
    (h : (analyzeImage jobStore bound newJobID now ran).2.2 = some unit) :
    let w : World := { jobs := (analyzeImage jobStore bound newJobID now ran).2.1, fs := fs }
    (∀ err, runDive unit.req.Source unit.target = .error err →
      (∀ w' ∈ runAnalyzeJobTrace lib runDive completedAt w unit.jobID unit.req unit.target,
        w'.fs = fs) ∧
      (runAnalyzeJob lib runDive completedAt w unit.jobID unit.req unit.target).fs = fs ∧
      (runAnalyzeJob lib runDive completedAt w unit.jobID unit.req unit.target).jobs unit.jobID
        = some
            { ID := unit.jobID, Status := StatusFailed, Message := err, Result := []
              Source := unit.req.Source, Target := unit.target, CreatedAt := now
              CompletedAt := Time.zero }) ∧
    (∀ result, runDive unit.req.Source unit.target = .ok result →
      (runAnalyzeJob lib runDive completedAt w unit.jobID unit.req unit.target).jobs unit.jobID
        = some
            { ID := unit.jobID, Status := StatusSucceeded, Message := "", Result := result
              Source := unit.req.Source, Target := unit.target, CreatedAt := now
              CompletedAt := completedAt }) := by
  obtain ⟨hid, hrec⟩ := analyzeImage_record jobStore bound newJobID now ran unit h
  intro w
  subst hid
  constructor
  · intro err hd
    simp [runAnalyzeJob, runAnalyzeJobTrace, JobStore.Update, JobStore.Get, hd, w, hrec]
  · intro result hd
    simp only [runAnalyzeJob, runAnalyzeJobTrace, JobStore.Update, JobStore.Get, hd, w, hrec,
      if_true]
    split <;> simp

theorem C9_history_on_success_only_witness :
    (analyzeImage NewJobStore (some sampleRequest) "j1" 100 id).2.2
      = some { jobID := "j1", req := sampleRequest, target := "alpine:latest" } ∧
    (let w : World :=
      { jobs := (analyzeImage NewJobStore (some sampleRequest) "j1" 100 id).2.1, fs := [] }
     (∀ err, diveFails sampleRequest.Source "alpine:latest" = .error err →
      (∀ w' ∈ runAnalyzeJobTrace sampleLib diveFails 200 w "j1" sampleRequest "alpine:latest",
        w'.fs = []) ∧
      (runAnalyzeJob sampleLib diveFails 200 w "j1" sampleRequest "alpine:latest").fs = [] ∧
      (runAnalyzeJob sampleLib diveFails 200 w "j1" sampleRequest "alpine:latest").jobs "j1"
        = some
            { ID := "j1", Status := StatusFailed, Message := err, Result := []
              Source := sampleRequest.Source, Target := "alpine:latest", CreatedAt := 100
              CompletedAt := Time.zero }) ∧
     (∀ result, diveFails sampleRequest.Source "alpine:latest" = .ok result →
      (runAnalyzeJob sampleLib diveFails 200 w "j1" sampleRequest "alpine:latest").jobs "j1"
        = some
            { ID := "j1", Status := StatusSucceeded, Message := "", Result := result
              Source := sampleRequest.Source, Target := "alpine:latest", CreatedAt := 100
              CompletedAt := 200 })) :=
  ⟨by decide,
    C9_history_on_success_only sampleLib diveFails 200 [] NewJobStore (some sampleRequest)
      "j1" 100 id { jobID := "j1", req := sampleRequest, target := "alpine:latest" } (by decide)⟩

/-! ### Store.Delete -/

theorem Store.Delete_fst (s : Store) (fs : FS) (id : String) :
    (s.Delete fs id).1 = (fs.RemoveAll (s.EntryDir id)).1 := by
  unfold Store.Delete
  rcases h : fs.RemoveAll (s.EntryDir id) with ⟨fs1, _ | e⟩ <;> rfl

theorem Store.Delete_snd (s : Store) (fs : FS) (id : String) :
    (s.Delete fs id).2 = (fs.RemoveAll (s.EntryDir id)).2.map StoreError.os := by
  unfold Store.Delete
  rcases h : fs.RemoveAll (s.EntryDir id) with ⟨fs1, _ | e⟩ <;> rfl

theorem Store.Get_eq_ErrNotFound (lib : Lib) (s : Store) (fs : FS) (id : String) :
    s.Get lib fs id = .error StoreError.ErrNotFound ↔
      fs.stat (s.EntryPath id) = .error Errno.ENOENT := by
  unfold Store.Get FS.ReadFile
  cases hs : fs.stat (s.EntryPath id) with
  | error e => cases e <;> simp [IsNotExist]
  | ok m =>
    cases m with
    | dir => simp [IsNotExist]
    | file d =>
      simp only
      cases lib.jsonDecode d <;> simp

theorem FS.prune_prune (fs : FS) (p : Path) : (fs.prune p).prune p = fs.prune p := by
  unfold FS.prune
  rw [List.filter_filter]
  simp

theorem FS.RemoveAll_cases (fs : FS) (p : Path) (hp : p ≠ []) :
    (fs.stat p.dropLast = .ok Node.dir ∧ fs.RemoveAll p = (fs.prune p, none)) ∨
    (fs.stat p.dropLast = .error Errno.ENOENT ∧ fs.RemoveAll p = (fs, none)) ∨
    (fs.stat p.dropLast ≠ .ok Node.dir ∧ fs.stat p.dropLast ≠ .error Errno.ENOENT ∧
      ∃ e, fs.RemoveAll p = (fs, some e)) := by
  cases p with
  | nil => exact absurd rfl hp
  | cons c cs =>
    unfold FS.RemoveAll
    cases hs : fs.stat (c :: cs).dropLast with
    | error e => cases e <;> simp [IsNotExist]
    | ok m => cases m <;> simp

/-- C10, as stated, fails: for the identifier `../..` the entry directory of
the history store is the root of the file system; no entry exists for it, yet
`Delete` returns an error. -/
theorem C10_counterexample_root :
    historyStore.Get sampleLib [] "../.." = .error StoreError.ErrNotFound ∧
    (historyStore.Delete [] "../..").2 = some (StoreError.os Errno.EBUSY) := by
  decide

/-- An identifier whose entry directory lies below a regular file: `Get` fails,
not with `ErrNotFound`, and `Delete` fails as well, both with `ENOTDIR`. -/
theorem Delete_below_file_example :
    historyStore.Get sampleLib fsA "a/entry.json/x"
      = .error (StoreError.os Errno.ENOTDIR) ∧
    (historyStore.Delete fsA "a/entry.json/x").2 = some (StoreError.os Errno.ENOTDIR) := by
  decide

/-- C10, amended: when `Get` reports `ErrNotFound` for an identifier whose
entry directory is not the root of the file system, `Delete` returns no error;
for every identifier, a second `Delete` leaves the state of the first, and
returns no error if the first returned none; and after a `Delete` without error
neither the entry directory, nor its exports subdirectory, nor its entry file
exists. -/
theorem C10_Delete_idempotent (lib : Lib) (s : Store) (fs : FS) (id : String) :
    (s.Get lib fs id = .error StoreError.ErrNotFound → s.EntryDir id ≠ [] →
      (s.Delete fs id).2 = none) ∧
    (s.Delete (s.Delete fs id).1 id).1 = (s.Delete fs id).1 ∧
    ((s.Delete fs id).2 = none → (s.Delete (s.Delete fs id).1 id).2 = none) ∧
    ((s.Delete fs id).2 = none →
      (s.Delete fs id).1.stat (s.EntryDir id) = .error Errno.ENOENT ∧
      (s.Delete fs id).1.stat (s.ExportsDir id) = .error Errno.ENOENT ∧
      (s.Delete fs id).1.stat (s.EntryPath id) = .error Errno.ENOENT) := by
  simp only [Store.Delete_fst, Store.Delete_snd, Option.map_eq_none']
  refine ⟨?_, ?_, ?_, ?_⟩
  · intro hget hp
    rw [Store.Get_eq_ErrNotFound, Store.EntryPath_eq] at hget
    rcases FS.RemoveAll_cases fs _ hp with ⟨_, h⟩ | ⟨_, h⟩ | ⟨h1, h2, _⟩
    · rw [h]
    · rw [h]
    · exfalso
      have hsplit : s.EntryDir id ++ [entryFileName]
          = (s.EntryDir id).dropLast ++ ([(s.EntryDir id).getLast hp] ++ [entryFileName]) := by
        rw [← List.append_assoc, List.dropLast_append_getLast]
      rw [hsplit] at hget
      cases hs : fs.stat (s.EntryDir id).dropLast with
      | error e =>
        rw [FS.stat_append_of_error fs _ _ hs] at hget
        cases hget
        exact h2 hs
      | ok m =>
        cases m with
        | dir => exact h1 hs
        | file d =>
          rw [FS.stat_append_of_file fs _ _ hs _ (by simp)] at hget
          cases hget
  · by_cases hp : s.EntryDir id = []
    · rw [hp]; rfl
    · rcases FS.RemoveAll_cases fs _ hp with ⟨_, h⟩ | ⟨_, h⟩ | ⟨_, _, e, h⟩
      · rw [h]
        rcases FS.RemoveAll_cases (fs.prune (s.EntryDir id)) _ hp with
          ⟨_, h'⟩ | ⟨_, h'⟩ | ⟨_, _, e, h'⟩
        · rw [h', FS.prune_prune]
        · rw [h']
        · rw [h']
      · rw [h, h]
      · rw [h, h]
  · intro hdel
    by_cases hp : s.EntryDir id = []
    · rw [hp] at hdel; simp [FS.RemoveAll] at hdel
    · rcases FS.RemoveAll_cases fs _ hp with ⟨hs, h⟩ | ⟨_, h⟩ | ⟨_, _, e, h⟩
      · rw [h]
        have hs' : (fs.prune (s.EntryDir id)).stat (s.EntryDir id).dropLast = .ok Node.dir := by
          rw [FS.stat_prune _ _ hp, if_neg, hs]
          intro h'
          have h1 := h'.length_le
          have h2 : (s.EntryDir id).dropLast.length < (s.EntryDir id).length := by
            rw [List.length_dropLast]
            exact Nat.sub_lt (List.length_pos.mpr hp) Nat.one_pos
          omega
        rcases FS.RemoveAll_cases (fs.prune (s.EntryDir id)) _ hp with
          ⟨_, h'⟩ | ⟨h1, _⟩ | ⟨h1, _, _⟩
        · rw [h']
        · rw [hs'] at h1; cases h1
        · exact absurd hs' h1
      · rw [h, h]
      · rw [h] at hdel; cases hdel
  · intro hdel
    refine ⟨?_, ?_, ?_⟩
    · simpa using FS.RemoveAll_gone fs _ hdel []
    · rw [Store.ExportsDir_eq]
      exact FS.RemoveAll_gone fs _ hdel _
    · rw [Store.EntryPath_eq]
      exact FS.RemoveAll_gone fs _ hdel _

/-! ### The sample library -/

theorem sampleLib_sortOK_before : sampleLib.SortOK lessBefore := by
  intro l
  have htot : IsTotal Metadata (fun a b => lessBefore b a = false) :=
    ⟨fun a b => by
      simp only [lessBefore, Time.Before, decide_eq_false_iff_not, not_lt]
      exact le_total _ _⟩
  have htr : IsTrans Metadata (fun a b => lessBefore b a = false) :=
    ⟨fun a b c => by
      simp only [lessBefore, Time.Before, decide_eq_false_iff_not, not_lt]
      exact le_trans⟩
  exact ⟨List.perm_insertionSort _ l, List.sorted_insertionSort _ l⟩

theorem sampleLib_sortOK_after : sampleLib.SortOK lessAfter := by
  intro l
  have htot : IsTotal Metadata (fun a b => lessAfter b a = false) :=
    ⟨fun a b => by
      simp only [lessAfter, Time.After, decide_eq_false_iff_not, not_lt]
      exact le_total _ _⟩
  have htr : IsTrans Metadata (fun a b => lessAfter b a = false) :=
    ⟨fun a b c => by
      simp only [lessAfter, Time.After, decide_eq_false_iff_not, not_lt]
      exact fun h1 h2 => le_trans h2 h1⟩
  exact ⟨List.perm_insertionSort _ l, List.sorted_insertionSort _ l⟩

/-! ### The layout invariant -/

theorem StoreInv_of_table (lib : Lib) (s : Store) (fs : FS)
    (h : StoreInvTable lib s fs = true) : StoreInv lib s fs := by
  intro name data e _ hread hdec
  rw [FS.ReadFile_eq_ok] at hread
  have hne : s.EntryPath name ≠ [] := by rw [Store.EntryPath_eq]; simp
  have hmem := FS.mem_of_node fs _ _ hne (FS.node_of_stat fs _ _ hread)
  unfold StoreInvTable at h
  rw [List.all_eq_true] at h
  have := h _ hmem
  simp only [hdec] at this
  rw [Store.EntryPath_eq] at this
  simpa using this

theorem StoreInv_Delete (lib : Lib) (s : Store) (fs : FS) (id : String)
    (h : StoreInv lib s fs) : StoreInv lib s (s.Delete fs id).1 := by
  intro name data e hdir hread hdec
  rw [Store.Delete_fst] at hdir
  rw [Store.Delete_fst, FS.ReadFile_eq_ok] at hread
  have hne : s.EntryPath name ≠ [] := by rw [Store.EntryPath_eq]; simp
  have := (FS.RemoveAll_stat_mono fs _ _ _ hne hread).1
  exact h name data e (FS.RemoveAll_stat_mono fs _ _ _ (by simp) hdir).1
    ((FS.ReadFile_eq_ok _ _ _).mpr this) hdec

theorem FS.ReadDir_flag (fs : FS) (p : Path) (entries : List (String × Bool)) (c : String)
    (h : fs.ReadDir p = .ok entries) (hc : (c, true) ∈ entries) :
    fs.stat (p ++ [c]) = .ok Node.dir := by
  unfold FS.ReadDir at h
  cases hs : fs.stat p with
  | error e => rw [hs] at h; cases h
  | ok m =>
    rw [hs] at h
    cases m with
    | file d => cases h
    | dir =>
      simp only [Except.ok.injEq] at h
      subst h
      rw [List.mem_map] at hc
      obtain ⟨c', _, hc'⟩ := hc
      simp only [Prod.mk.injEq, decide_eq_true_eq] at hc'
      obtain ⟨rfl, hn⟩ := hc'
      rw [FS.stat_snoc, hs, hn]

theorem mem_scan (lib : Lib) (s : Store) (fs : FS) (entries : List (String × Bool))
    (m : Metadata) (h : m ∈ s.scan lib fs entries) :
    ∃ name data e, (name, true) ∈ entries ∧ fs.ReadFile (s.EntryPath name) = .ok data ∧
      lib.jsonDecode data = .ok e ∧ e.Metadata = m := by
  unfold Store.scan at h
  rw [List.mem_filterMap] at h
  obtain ⟨⟨name, b⟩, hmem, hf⟩ := h
  cases b with
  | false => simp at hf
  | true =>
    simp only [Bool.not_true, Bool.false_eq_true, if_false] at hf
    cases hr : fs.ReadFile (s.EntryPath name) with
    | error e => rw [hr] at hf; cases hf
    | ok data =>
      rw [hr] at hf
      simp only at hf
      cases hd : lib.jsonDecode data with
      | error e => rw [hd] at hf; cases hf
      | ok e =>
        rw [hd] at hf
        cases hf
        exact ⟨name, data, e, hmem, hr, hd, rfl⟩

/-- C4: in a store that keeps its layout invariant, after `Delete(id)` returns
no error `Get(id)` fails with `ErrNotFound`, and no metadata that `List`
returns has the identifier `id`. -/
theorem C4_Delete_then_absent (lib : Lib) (s : Store) (fs : FS) (id : String)
    (hsort : lib.SortOK lessAfter) (hinv : StoreInv lib s fs)
    (hdel : (s.Delete fs id).2 = none) :
    s.Get lib (s.Delete fs id).1 id = .error StoreError.ErrNotFound ∧
    ∀ l, s.List lib (s.Delete fs id).1 = .ok l → ∀ m ∈ l, m.ID ≠ id := by
  have hdel' : (fs.RemoveAll (s.EntryDir id)).2 = none := by
    rw [Store.Delete_snd] at hdel
    simpa using hdel
  constructor
  · rw [Store.Get_eq_ErrNotFound, Store.EntryPath_eq, Store.Delete_fst]
    exact FS.RemoveAll_gone fs _ hdel' _
  · intro l hl m hm hid
    unfold Store.List at hl
    cases hrd : (s.Delete fs id).1.ReadDir s.dir with
    | error e =>
      rw [hrd] at hl
      by_cases he : IsNotExist e = true
      · simp [he] at hl
        subst hl
        cases hm
      · simp [he] at hl
    | ok entries =>
      rw [hrd] at hl
      simp only [Except.ok.injEq] at hl
      subst hl
      have hm' := ((hsort _).1.mem_iff).mp hm
      obtain ⟨name, data, e, hname, hread, hdec, hmeta⟩ := mem_scan _ _ _ _ _ hm'
      have hdir := StoreInv_Delete lib s fs id hinv name data e
        (FS.ReadDir_flag _ _ _ _ hrd hname) hread hdec
      rw [hmeta, hid] at hdir
      rw [FS.ReadFile_eq_ok, Store.EntryPath_eq, Store.Delete_fst, ← hdir,
        FS.RemoveAll_gone fs _ hdel'] at hread
      cases hread

theorem C4_Delete_then_absent_witness :
    sampleLib.SortOK lessAfter ∧ StoreInv sampleLib historyStore fsA ∧
    (historyStore.Delete fsA "a").2 = none ∧
    historyStore.Get sampleLib fsA "a" = .ok entryA ∧
    (historyStore.Get sampleLib (historyStore.Delete fsA "a").1 "a"
        = .error StoreError.ErrNotFound ∧
      ∀ l, historyStore.List sampleLib (historyStore.Delete fsA "a").1 = .ok l →
        ∀ m ∈ l, m.ID ≠ "a") :=
  ⟨sampleLib_sortOK_after, StoreInv_of_table _ _ _ (by decide), by decide, by decide,
    C4_Delete_then_absent sampleLib historyStore fsA "a" sampleLib_sortOK_after
      (StoreInv_of_table _ _ _ (by decide)) (by decide)⟩

/-! ### Store.List -/

theorem FS.ReadDir_names (fs : FS) (p : Path) (entries : List (String × Bool))
    (h : fs.ReadDir p = .ok entries) :
    entries.map Prod.fst
        = (fs.childNames p).dedup.insertionSort (fun a b => nameLE a.data b.data = true) ∧
    (entries.map Prod.fst).Nodup ∧
    ∀ c b, (c, b) ∈ entries → b = decide (fs.node (p ++ [c]) = some Node.dir) := by
  unfold FS.ReadDir at h
  cases hs : fs.stat p with
  | error e => rw [hs] at h; cases h
  | ok m =>
    rw [hs] at h
    cases m with
    | file d => cases h
    | dir =>
      simp only [Except.ok.injEq] at h
      subst h
      have hnames : ∀ l : List String,
          (l.map (fun c => (c, decide (fs.node (p ++ [c]) = some Node.dir)))).map Prod.fst = l := by
        intro l
        rw [List.map_map]
        exact List.map_id' l
      refine ⟨hnames _, ?_, ?_⟩
      · rw [hnames]
        exact (List.perm_insertionSort _ _).nodup_iff.mpr (List.nodup_dedup _)
      · intro c b hmem
        rw [List.mem_map] at hmem
        obtain ⟨c', _, hc⟩ := hmem
        cases hc
        rfl

/-- C3: when the store directory does not exist `List` returns the empty list;
when it can be read `List` returns, without error, a permutation of the
metadata of the directory entries that are directories with a readable,
parseable entry file, each directory name being visited once; the result is
ordered by completion time descending, so that of two adjacent elements the
second is not after the first. -/
theorem C3_List_sorted_descending (lib : Lib) (s : Store) (fs : FS)
    (hsort : lib.SortOK lessAfter) :
    (fs.stat s.dir = .error Errno.ENOENT → s.List lib fs = .ok []) ∧
    (∀ entries, fs.ReadDir s.dir = .ok entries →
      ∃ l, s.List lib fs = .ok l ∧
        l.Perm (s.scan lib fs entries) ∧
        (entries.map Prod.fst).Nodup ∧
        (∀ name data e, (name, true) ∈ entries →
          fs.ReadFile (s.EntryPath name) = .ok data → lib.jsonDecode data = .ok e →
          e.Metadata ∈ l) ∧
        (∀ m ∈ l, ∃ name data e, (name, true) ∈ entries ∧
          fs.ReadFile (s.EntryPath name) = .ok data ∧ lib.jsonDecode data = .ok e ∧
          e.Metadata = m) ∧
        l.Pairwise (fun a b => b.CompletedAt ≤ a.CompletedAt) ∧
        l.Chain' (fun a b => b.CompletedAt.After a.CompletedAt = false)) := by
  constructor
  · intro h
    simp [Store.List, FS.ReadDir, h, IsNotExist]
  · intro entries h
    refine ⟨_, by simp [Store.List, h], (hsort _).1, (FS.ReadDir_names _ _ _ h).2.1, ?_, ?_, ?_, ?_⟩
    · intro name data e hmem hread hdec
      apply ((hsort _).1.mem_iff).mpr
      unfold Store.scan
      rw [List.mem_filterMap]
      exact ⟨(name, true), hmem, by simp [hread, hdec]⟩
    · intro m hm
      exact mem_scan _ _ _ _ _ (((hsort _).1.mem_iff).mp hm)
    · refine (hsort _).2.imp ?_
      intro a b hab
      simpa [lessAfter, Time.After] using hab
    · apply List.Pairwise.chain'
      refine (hsort _).2.imp ?_
      intro a b hab
      simpa [lessAfter] using hab

theorem C3_List_sorted_descending_witness :
    sampleLib.SortOK lessAfter ∧
    fsAB.ReadDir historyStore.dir = .ok [("a", true), ("b", true)] ∧
    historyStore.List sampleLib fsAB = .ok [entryB.Metadata, entryA.Metadata] ∧
    ∃ l, historyStore.List sampleLib fsAB = .ok l ∧
      l.Perm (historyStore.scan sampleLib fsAB [("a", true), ("b", true)]) ∧
      l.Pairwise (fun a b => b.CompletedAt ≤ a.CompletedAt) :=
  ⟨sampleLib_sortOK_after, by decide, by decide,
    match (C3_List_sorted_descending sampleLib historyStore fsAB sampleLib_sortOK_after).2
        [("a", true), ("b", true)] (by decide) with
    | ⟨l, h1, h2, _, _, _, h6, _⟩ => ⟨l, h1, h2, h6⟩⟩

/-! ### os.MkdirAll -/

theorem FS.stat_dropLast_lt (p : Path) (hp : p ≠ []) : ¬ p <+: p.dropLast := by
  intro h'
  have h1 := h'.length_le
  have h2 : p.dropLast.length < p.length := by
    rw [List.length_dropLast]
    exact Nat.sub_lt (List.length_pos.mpr hp) Nat.one_pos
  omega

theorem FS.stat_new_dir (fs : FS) (p : Path) (hp : p ≠ [])
    (h : fs.stat p.dropLast = .ok Node.dir) (q : Path) :
    ((fs.prune p).put p Node.dir).stat q =
      if q = p then .ok Node.dir
      else if p <+: q then .error Errno.ENOENT
      else fs.stat q := by
  by_cases h1 : q = p
  · subst h1
    rw [if_pos rfl]
    apply FS.stat_put_self _ _ _ hp
    rw [FS.stat_prune _ _ hp, if_neg (FS.stat_dropLast_lt _ hp), h]
  · rw [if_neg h1]
    by_cases h2 : p <+: q
    · rw [if_pos h2]
      obtain ⟨r, rfl⟩ := h2
      apply FS.stat_below_new_dir fs p hp h r
      rintro rfl
      simp at h1
    · rw [if_neg h2, FS.stat_put_elsewhere _ _ _ _ h2, FS.stat_prune _ _ hp, if_neg h2]

theorem FS.mkdirFrom_skip (fs : FS) (a b : Path) (pre : Path)
    (h : fs.stat (pre ++ a) = .ok Node.dir) :
    FS.mkdirFrom fs pre (a ++ b) = FS.mkdirFrom fs (pre ++ a) b := by
  induction a generalizing pre with
  | nil => simp
  | cons c a ih =>
    have h1 : fs.stat (pre ++ [c]) = .ok Node.dir := by
      by_cases ha : a = []
      · subst ha; exact h
      · apply FS.stat_dir_of_append fs (pre ++ [c]) a Node.dir ha
        simpa using h
    have h2 := FS.node_of_stat fs _ _ h1
    have h3 := ih (pre ++ [c]) (by simpa using h)
    simp only [List.cons_append, FS.mkdirFrom, h2]
    simpa using h3

theorem FS.MkdirAll_of_dir (fs : FS) (p : Path) (h : fs.stat p = .ok Node.dir) :
    fs.MkdirAll p = .ok fs := by
  have := FS.mkdirFrom_skip fs p [] [] (by simpa using h)
  simpa [FS.MkdirAll, FS.mkdirFrom] using this

theorem FS.node_of_stat_ENOENT (fs : FS) (p : Path) (hp : p ≠ [])
    (h : fs.stat p.dropLast = .ok Node.dir) (h' : fs.stat p = .error Errno.ENOENT) :
    fs.node p = none := by
  rw [← List.dropLast_append_getLast hp, FS.stat_snoc, h] at h'
  rw [← List.dropLast_append_getLast hp]
  cases hn : fs.node (p.dropLast ++ [p.getLast hp]) with
  | none => rfl
  | some n => rw [hn] at h'; cases h'

theorem FS.MkdirAll_one (fs : FS) (p : Path) (hp : p ≠ [])
    (h : fs.stat p.dropLast = .ok Node.dir) (h' : fs.stat p = .error Errno.ENOENT) :
    fs.MkdirAll p = .ok ((fs.prune p).put p Node.dir) := by
  have hn := FS.node_of_stat_ENOENT fs p hp h h'
  have hs := FS.mkdirFrom_skip fs p.dropLast [p.getLast hp] [] (by simpa using h)
  rw [List.dropLast_append_getLast hp] at hs
  unfold FS.MkdirAll
  rw [hs]
  simp only [List.nil_append, FS.mkdirFrom, List.dropLast_append_getLast hp, hn]

theorem FS.mkdirFrom_missing (fs : FS) (rest pre : Path) (hpre : fs.stat pre = .ok Node.dir)
    (h : fs.stat (pre ++ rest) = .error Errno.ENOENT) :
    ∃ fs1, FS.mkdirFrom fs pre rest = .ok fs1 ∧ fs1.stat (pre ++ rest) = .ok Node.dir ∧
      ∀ r, r ≠ [] → fs1.stat (pre ++ rest ++ r) = .error Errno.ENOENT := by
  induction rest generalizing fs pre with
  | nil =>
    rw [List.append_nil, hpre] at h
    cases h
  | cons c cs ih =>
    have hassoc : ∀ r : Path, pre ++ c :: cs ++ r = pre ++ [c] ++ cs ++ r := by
      intro r; simp
    have hassoc' : pre ++ c :: cs = pre ++ [c] ++ cs := by simp
    cases hn : fs.node (pre ++ [c]) with
    | some n =>
      have hq : fs.stat (pre ++ [c]) = .ok n := by
        rw [FS.stat_snoc, hpre, hn]
      cases n with
      | dir =>
        obtain ⟨fs1, h1, h2, h3⟩ := ih fs (pre ++ [c]) hq (by rw [← hassoc']; exact h)
        refine ⟨fs1, ?_, by rw [hassoc']; exact h2, fun r hr => by rw [hassoc]; exact h3 r hr⟩
        simp only [FS.mkdirFrom, hn]
        exact h1
      | file d =>
        exfalso
        by_cases hcs : cs = []
        · subst hcs
          rw [hq] at h
          cases h
        · rw [hassoc', FS.stat_append_of_file fs _ d hq cs hcs] at h
          cases h
    | none =>
      have hne : pre ++ [c] ≠ [] := by simp
      have hdl : (pre ++ [c]).dropLast = pre := by simp
      have hst := FS.stat_new_dir fs (pre ++ [c]) hne (by rw [hdl]; exact hpre)
      simp only [FS.mkdirFrom, hn]
      by_cases hcs : cs = []
      · subst hcs
        refine ⟨_, rfl, ?_, ?_⟩
        · rw [hst]; simp
        · intro r hr
          rw [hst, if_neg, if_pos (List.prefix_append _ _)]
          intro e
          have := congrArg List.length e
          simp at this
          exact hr this
      · have hq : ((fs.prune (pre ++ [c])).put (pre ++ [c]) Node.dir).stat (pre ++ [c])
            = .ok Node.dir := by
          rw [hst]; simp
        have hbelow : ((fs.prune (pre ++ [c])).put (pre ++ [c]) Node.dir).stat (pre ++ [c] ++ cs)
            = .error Errno.ENOENT := by
          rw [hst, if_neg, if_pos (List.prefix_append _ _)]
          intro e
          have := congrArg List.length e
          simp at this
          exact hcs this
        obtain ⟨fs1, h1, h2, h3⟩ := ih _ (pre ++ [c]) hq hbelow
        exact ⟨fs1, h1, by rw [hassoc']; exact h2, fun r hr => by rw [hassoc]; exact h3 r hr⟩

theorem FS.stat_put_file (fs : FS) (p : Path) (d : Bytes) (hp : p ≠ [])
    (h : fs.stat p.dropLast = .ok Node.dir) (q : Path) :
    (fs.put p (Node.file d)).stat q =
      if q = p then .ok (Node.file d)
      else if p <+: q then .error Errno.ENOTDIR
      else fs.stat q := by
  have hself := FS.stat_put_self fs p (Node.file d) hp h
  by_cases h1 : q = p
  · subst h1
    rw [if_pos rfl, hself]
  · rw [if_neg h1]
    by_cases h2 : p <+: q
    · rw [if_pos h2]
      obtain ⟨r, rfl⟩ := h2
      apply FS.stat_append_of_file _ _ d hself
      rintro rfl
      simp at h1
    · rw [if_neg h2, FS.stat_put_elsewhere _ _ _ _ h2]

/-! ### Identifiers that are single path elements -/

theorem splitSlashAux_no_slash (cs cur : List Char) (h : '/' ∉ cs) :
    splitSlashAux cs cur = [String.mk (cur.reverse ++ cs)] := by
  induction cs generalizing cur with
  | nil => simp [splitSlashAux]
  | cons c cs ih =>
    have hc : c ≠ '/' := fun e => h (e ▸ List.mem_cons_self _ _)
    have hcs : '/' ∉ cs := fun m => h (List.mem_cons_of_mem _ m)
    simp only [splitSlashAux, if_neg hc]
    rw [ih _ hcs]
    simp

theorem Join_simple (base : Path) (id : String) (h : SimpleName id) :
    Join base id = base ++ [id] := by
  obtain ⟨h1, h2, h3, h4⟩ := h
  have hs : splitSlash id = [id] := by
    unfold splitSlash
    rw [splitSlashAux_no_slash _ _ h4]
    simp
  unfold Join
  rw [hs]
  simp only [List.foldl_cons, List.foldl_nil, cleanStep]
  rw [if_neg (by simp [h1, h2]), if_neg h3]

theorem Store.EntryDir_simple (s : Store) (id : String) (h : SimpleName id) :
    s.EntryDir id = s.dir ++ [id] :=
  Join_simple _ _ h

/-! ### Store.Save: writing the entry file -/

theorem snoc_not_above (p : Path) (c : String) : ¬ p ++ [c] <+: p := by
  intro h
  have := h.length_le
  simp at this

theorem snoc_ne_self (p : Path) (c : String) : p ≠ p ++ [c] := by
  intro e
  have := congrArg List.length e
  simp at this

theorem snoc_prefix_snoc (p : Path) (c d : String) (h : p ++ [c] <+: p ++ [d]) : c = d := by
  rcases List.prefix_concat_iff.mp h with h1 | h1
  · exact List.append_cancel_left h1 |> fun e => by simpa using e
  · exact absurd h1 (snoc_not_above p c)

/-- The file system after the temporary file of `Save` is created, written and
renamed to the entry file. -/
theorem write_tail (fs2 : FS) (runDir : Path) (t : String) (data : Bytes) (fs5 : FS)
    (hdir : fs2.stat runDir = .ok Node.dir)
    (hren : ((fs2.put (runDir ++ [t]) (Node.file [])).put (runDir ++ [t])
        (Node.file data)).Rename (runDir ++ [t]) (runDir ++ [entryFileName]) = .ok fs5) :
    ∀ q, fs5.stat q =
      if q = runDir ++ [entryFileName] then .ok (Node.file data)
      else if runDir ++ [entryFileName] <+: q then .error Errno.ENOTDIR
      else if runDir ++ [t] <+: q then .error Errno.ENOENT
      else fs2.stat q := by
  have hdl : ∀ c : String, (runDir ++ [c]).dropLast = runDir := by intro c; simp
  have hne : ∀ c : String, runDir ++ [c] ≠ [] := by intro c; simp
  have h3 : ∀ q, (fs2.put (runDir ++ [t]) (Node.file [])).stat q =
      if q = runDir ++ [t] then .ok (Node.file [])
      else if runDir ++ [t] <+: q then .error Errno.ENOTDIR
      else fs2.stat q :=
    FS.stat_put_file fs2 _ _ (hne t) (by rw [hdl]; exact hdir)
  have h3dir : (fs2.put (runDir ++ [t]) (Node.file [])).stat runDir = .ok Node.dir := by
    rw [h3, if_neg (snoc_ne_self _ _), if_neg (snoc_not_above _ _), hdir]
  have h4 : ∀ q, ((fs2.put (runDir ++ [t]) (Node.file [])).put (runDir ++ [t])
        (Node.file data)).stat q =
      if q = runDir ++ [t] then .ok (Node.file data)
      else if runDir ++ [t] <+: q then .error Errno.ENOTDIR
      else fs2.stat q := by
    intro q
    rw [FS.stat_put_file _ _ _ (hne t) (by rw [hdl]; exact h3dir), h3]
    by_cases e1 : q = runDir ++ [t]
    · simp [e1]
    · by_cases e2 : runDir ++ [t] <+: q
      · simp [e1, e2]
      · simp [e1, e2]
  generalize hfs4 : (fs2.put (runDir ++ [t]) (Node.file [])).put (runDir ++ [t])
    (Node.file data) = fs4 at hren h4
  have h4dir : fs4.stat runDir = .ok Node.dir := by
    rw [h4, if_neg (snoc_ne_self _ _), if_neg (snoc_not_above _ _), hdir]
  have h5 : fs5 = (fs4.prune (runDir ++ [t])).put (runDir ++ [entryFileName]) (Node.file data) := by
    unfold FS.Rename at hren
    rw [h4 (runDir ++ [t]), if_pos rfl] at hren
    simp only at hren
    cases hs : fs4.stat (runDir ++ [entryFileName]) with
    | ok m =>
      rw [hs] at hren
      cases m with
      | dir => cases hren
      | file d => simp only [Except.ok.injEq] at hren; exact hren.symm
    | error e =>
      rw [hs] at hren
      cases e with
      | ENOENT =>
        simp only [hdl, h4dir, Except.ok.injEq] at hren
        exact hren.symm
      | ENOTDIR => cases hren
      | EISDIR => cases hren
      | EBUSY => cases hren
  have hp4 : ∀ q, (fs4.prune (runDir ++ [t])).stat q =
      if runDir ++ [t] <+: q then .error Errno.ENOENT else fs2.stat q := by
    intro q
    rw [FS.stat_prune _ _ (hne t)]
    by_cases e2 : runDir ++ [t] <+: q
    · simp [e2, FS.goneErr, hdl, h4dir]
    · have e1 : ¬ q = runDir ++ [t] := fun e => e2 (e ▸ List.prefix_refl _)
      simp [e2, h4, e1]
  have hp4dir : (fs4.prune (runDir ++ [t])).stat runDir = .ok Node.dir := by
    rw [hp4, if_neg (snoc_not_above _ _), hdir]
  intro q
  rw [h5, FS.stat_put_file _ _ _ (hne _) (by rw [hdl]; exact hp4dir), hp4]

theorem rename_fresh (fs2 : FS) (runDir : Path) (t : String) (data : Bytes)
    (hdir : fs2.stat runDir = .ok Node.dir)
    (hnew : fs2.stat (runDir ++ [entryFileName]) ≠ .ok Node.dir) :
    ∃ fs5, ((fs2.put (runDir ++ [t]) (Node.file [])).put (runDir ++ [t])
        (Node.file data)).Rename (runDir ++ [t]) (runDir ++ [entryFileName]) = .ok fs5 := by
  have hdl : ∀ c : String, (runDir ++ [c]).dropLast = runDir := by intro c; simp
  have hne : ∀ c : String, runDir ++ [c] ≠ [] := by intro c; simp
  have h3 : ∀ q, (fs2.put (runDir ++ [t]) (Node.file [])).stat q =
      if q = runDir ++ [t] then .ok (Node.file [])
      else if runDir ++ [t] <+: q then .error Errno.ENOTDIR
      else fs2.stat q :=
    FS.stat_put_file fs2 _ _ (hne t) (by rw [hdl]; exact hdir)
  have h3dir : (fs2.put (runDir ++ [t]) (Node.file [])).stat runDir = .ok Node.dir := by
    rw [h3, if_neg (snoc_ne_self _ _), if_neg (snoc_not_above _ _), hdir]
  have h4 : ∀ q, ((fs2.put (runDir ++ [t]) (Node.file [])).put (runDir ++ [t])
        (Node.file data)).stat q =
      if q = runDir ++ [t] then .ok (Node.file data)
      else if runDir ++ [t] <+: q then .error Errno.ENOTDIR
      else fs2.stat q := by
    intro q
    rw [FS.stat_put_file _ _ _ (hne t) (by rw [hdl]; exact h3dir), h3]
    by_cases e1 : q = runDir ++ [t]
    · simp [e1]
    · by_cases e2 : runDir ++ [t] <+: q
      · simp [e1, e2]
      · simp [e1, e2]
  generalize hfs4 : (fs2.put (runDir ++ [t]) (Node.file [])).put (runDir ++ [t])
    (Node.file data) = fs4 at h4 ⊢
  have h4dir : fs4.stat runDir = .ok Node.dir := by
    rw [h4, if_neg (snoc_ne_self _ _), if_neg (snoc_not_above _ _), hdir]
  unfold FS.Rename
  rw [h4 (runDir ++ [t]), if_pos rfl]
  simp only
  by_cases ht : t = entryFileName
  · subst ht
    rw [h4 _, if_pos rfl]
    exact ⟨_, rfl⟩
  · have e1 : ¬ runDir ++ [entryFileName] = runDir ++ [t] := by
      intro e
      exact ht (by simpa using e.symm)
    have e2 : ¬ runDir ++ [t] <+: runDir ++ [entryFileName] :=
      fun h => ht (snoc_prefix_snoc _ _ _ h)
    rw [h4, if_neg e1, if_neg e2]
    cases hs : fs2.stat (runDir ++ [entryFileName]) with
    | ok m =>
      cases m with
      | dir => exact absurd hs hnew
      | file d => exact ⟨_, rfl⟩
    | error e =>
      have hs' := hs
      rw [FS.stat_snoc, hdir] at hs'
      cases hn : fs2.node (runDir ++ [entryFileName]) with
      | some n => rw [hn] at hs'; cases hs'
      | none =>
        rw [hn] at hs'
        simp only [Except.error.injEq] at hs'
        subst hs'
        simp only [hdl, h4dir]
        exact ⟨_, rfl⟩

/-! ### Reading the store directory -/

theorem FS.mem_childNames (fs : FS) (p : Path) (c : String) :
    c ∈ fs.childNames p ↔ ∃ n, (p ++ [c], n) ∈ fs := by
  unfold FS.childNames
  rw [List.mem_filterMap]
  constructor
  · rintro ⟨⟨q, n⟩, hmem, hf⟩
    simp only at hf
    cases hl : q.getLast? with
    | none => rw [hl] at hf; cases hf
    | some d =>
      rw [hl] at hf
      simp only at hf
      by_cases hq : q = p ++ [d]
      · rw [if_pos hq] at hf
        cases hf
        exact ⟨n, hq ▸ hmem⟩
      · rw [if_neg hq] at hf; cases hf
  · rintro ⟨n, hmem⟩
    refine ⟨(p ++ [c], n), hmem, ?_⟩
    simp

theorem FS.node_of_mem (fs : FS) (q : Path) (n : Node) (hq : q ≠ []) (h : (q, n) ∈ fs) :
    ∃ n', fs.node q = some n' := by
  induction fs with
  | nil => cases h
  | cons kv fs ih =>
    obtain ⟨k, m⟩ := kv
    rw [FS.node_cons _ _ _ _ hq]
    by_cases hk : k = q
    · exact ⟨m, by rw [if_pos hk]⟩
    · rw [if_neg hk]
      rcases List.mem_cons.mp h with h1 | h1
      · cases h1; exact absurd rfl hk
      · exact ih h1

theorem FS.stat_child (fs : FS) (p : Path) (c : String) (hp : fs.stat p = .ok Node.dir)
    (n : Node) : fs.stat (p ++ [c]) = .ok n ↔ fs.node (p ++ [c]) = some n := by
  rw [FS.stat_snoc, hp]
  cases hn : fs.node (p ++ [c]) with
  | none => simp
  | some m => simp

theorem FS.ReadDir_of_dir (fs : FS) (p : Path) (hp : fs.stat p = .ok Node.dir) :
    ∃ names : List String,
      fs.ReadDir p
        = .ok (names.map (fun c => (c, decide (fs.stat (p ++ [c]) = .ok Node.dir)))) ∧
      names.Nodup ∧ ∀ c, c ∈ names ↔ ∃ n, fs.stat (p ++ [c]) = .ok n := by
  refine ⟨(fs.childNames p).dedup.insertionSort (fun a b => nameLE a.data b.data = true),
    ?_, ?_, ?_⟩
  · unfold FS.ReadDir
    rw [hp]
    simp only [Except.ok.injEq]
    apply List.map_congr_left
    intro c _
    have := FS.stat_child fs p c hp Node.dir
    simp only [Prod.mk.injEq, true_and, decide_eq_decide]
    exact this.symm
  · exact (List.perm_insertionSort _ _).nodup_iff.mpr (List.nodup_dedup _)
  · intro c
    rw [List.mem_insertionSort, List.mem_dedup, FS.mem_childNames]
    constructor
    · rintro ⟨n, hmem⟩
      obtain ⟨n', hn'⟩ := FS.node_of_mem fs _ n (by simp) hmem
      exact ⟨n', (FS.stat_child fs p c hp n').mpr hn'⟩
    · rintro ⟨n, hn⟩
      exact ⟨n, FS.mem_of_node fs _ n (by simp) ((FS.stat_child fs p c hp n).mp hn)⟩

theorem Holds.stat_entryDir {lib : Lib} {s : Store} {fs : FS} {held : List Metadata}
    (h : Holds lib s fs held) {m : Metadata} (hm : m ∈ held) :
    fs.stat (s.dir ++ [m.ID]) = .ok Node.dir := by
  obtain ⟨_, data, e, hst, _, _⟩ := h.2.2.1 m hm
  apply FS.stat_dir_of_append fs (s.dir ++ [m.ID]) [entryFileName] _ (by simp)
  simpa using hst

theorem scan_of_holds (lib : Lib) (s : Store) (fs : FS) (held : List Metadata)
    (h : Holds lib s fs held) :
    ∃ entries, fs.ReadDir s.dir = .ok entries ∧ (s.scan lib fs entries).Perm held := by
  obtain ⟨names, hrd, hnd, hmem⟩ := FS.ReadDir_of_dir fs s.dir h.1
  refine ⟨_, hrd, ?_⟩
  have hperm : names.Perm (held.map Metadata.ID) := by
    rw [List.perm_ext_iff_of_nodup hnd h.2.2.2]
    intro c
    rw [hmem, List.mem_map]
    constructor
    · rintro ⟨n, hn⟩
      obtain ⟨m, hm, hid⟩ := h.2.1 c n hn
      exact ⟨m, hm, hid⟩
    · rintro ⟨m, hm, rfl⟩
      exact ⟨_, h.stat_entryDir hm⟩
  unfold Store.scan
  rw [List.filterMap_map]
  refine (hperm.filterMap _).trans ?_
  rw [List.filterMap_map]
  refine List.Perm.of_eq ((List.filterMap_congr fun m hm => ?_).trans (List.filterMap_some _))
  obtain ⟨hsimple, data, e, hst, hdec, hmeta⟩ := h.2.2.1 m hm
  have hpath : s.EntryPath m.ID = s.dir ++ [m.ID, entryFileName] := by
    rw [Store.EntryPath_eq, Store.EntryDir_simple _ _ hsimple]
    simp
  have hread : fs.ReadFile (s.EntryPath m.ID) = .ok data := by
    rw [FS.ReadFile_eq_ok, hpath]; exact hst
  simp [h.stat_entryDir hm, hread, hdec, hmeta]

/-- A store that holds its entries in proper layout keeps the layout
invariant. -/
theorem Holds.storeInv {lib : Lib} {s : Store} {fs : FS} {held : List Metadata}
    (h : Holds lib s fs held) : StoreInv lib s fs := by
  intro name data e hdir hread hdec
  obtain ⟨m, hm, hid⟩ := h.2.1 name _ hdir
  obtain ⟨hsimple, data2, e2, hst, hdec2, hmeta⟩ := h.2.2.1 m hm
  subst hid
  have hpath : s.EntryPath m.ID = s.dir ++ [m.ID, entryFileName] := by
    rw [Store.EntryPath_eq, Store.EntryDir_simple _ _ hsimple]
    simp
  rw [FS.ReadFile_eq_ok, hpath, hst] at hread
  simp only [Except.ok.injEq, Node.file.injEq] at hread
  subst hread
  rw [hdec2] at hdec
  simp only [Except.ok.injEq] at hdec
  subst hdec
  rw [hmeta]

theorem dir_cons_ne (d : Path) (c : String) (r : Path) : d ++ c :: r ≠ d := by
  intro e
  have := congrArg List.length e
  simp at this

/-- The file system after `Save` has written the entry file of an entry whose
identifier is a single path element, before the eviction: the entry directory
and the entry file exist, and nothing else in the store directory changed. -/
theorem Save_simple_stat (lib : Lib) (s : Store) (fs fs1 : FS) (e : Entry) (data : Bytes)
    (hmk : fs.MkdirAll s.dir = .ok fs1) (hdir : fs1.stat s.dir = .ok Node.dir)
    (hid : SimpleName e.Metadata.ID) (henc : lib.jsonEncode e = .ok data)
    (hrun : fs1.stat (s.dir ++ [e.Metadata.ID]) = .error Errno.ENOENT ∨
      (fs1.stat (s.dir ++ [e.Metadata.ID]) = .ok Node.dir ∧
        fs1.stat (s.dir ++ [e.Metadata.ID, entryFileName]) ≠ .ok Node.dir)) :
    ∃ fs5, s.Save lib fs e = s.pruneLocked lib fs5 ∧
      fs5.stat s.dir = .ok Node.dir ∧
      (∀ c r, c ≠ e.Metadata.ID → fs5.stat (s.dir ++ c :: r) = fs1.stat (s.dir ++ c :: r)) ∧
      fs5.stat (s.dir ++ [e.Metadata.ID]) = .ok Node.dir ∧
      fs5.stat (s.dir ++ [e.Metadata.ID, entryFileName]) = .ok (Node.file data) := by
  have hrd : s.EntryDir e.Metadata.ID = s.dir ++ [e.Metadata.ID] := Store.EntryDir_simple _ _ hid
  have hne : s.dir ++ [e.Metadata.ID] ≠ [] := by simp
  have hdl : (s.dir ++ [e.Metadata.ID]).dropLast = s.dir := by simp
  -- the state after the second `MkdirAll`
  obtain ⟨fs2, hmk2, h2dir, h2run, h2new, h2other⟩ :
      ∃ fs2, fs1.MkdirAll (s.dir ++ [e.Metadata.ID]) = .ok fs2 ∧
        fs2.stat s.dir = .ok Node.dir ∧
        fs2.stat (s.dir ++ [e.Metadata.ID]) = .ok Node.dir ∧
        fs2.stat (s.dir ++ [e.Metadata.ID] ++ [entryFileName]) ≠ .ok Node.dir ∧
        ∀ c r, c ≠ e.Metadata.ID →
          fs2.stat (s.dir ++ c :: r) = fs1.stat (s.dir ++ c :: r) := by
    rcases hrun with h | ⟨h, h'⟩
    · have hst := FS.stat_new_dir fs1 _ hne (by rw [hdl]; exact hdir)
      refine ⟨_, FS.MkdirAll_one fs1 _ hne (by rw [hdl]; exact hdir) h, ?_, ?_, ?_, ?_⟩
      · rw [hst, if_neg (snoc_ne_self _ _), if_neg (snoc_not_above _ _), hdir]
      · rw [hst, if_pos rfl]
      · rw [hst, if_neg (snoc_ne_self _ _).symm, if_pos (List.prefix_append _ _)]
        simp
      · intro c r hc
        have e1 : ¬ s.dir ++ c :: r = s.dir ++ [e.Metadata.ID] := by
          intro e
          have := List.append_cancel_left e
          simp at this
          exact hc this.1
        have e2 : ¬ s.dir ++ [e.Metadata.ID] <+: s.dir ++ c :: r := by
          rw [List.prefix_append_right_inj, List.cons_prefix_cons]
          exact fun h => hc h.1.symm
        rw [hst, if_neg e1, if_neg e2]
    · refine ⟨fs1, FS.MkdirAll_of_dir _ _ h, hdir, h, ?_, fun _ _ _ => rfl⟩
      simpa using h'
  unfold Store.Save
  rw [hmk]
  simp only [hrd, hmk2, henc, Store.EntryPath_eq]
  obtain ⟨fs5, hren⟩ := rename_fresh fs2 (s.dir ++ [e.Metadata.ID])
    (lib.tempName fs2 (s.dir ++ [e.Metadata.ID])) data h2run h2new
  have hst := write_tail fs2 _ _ data fs5 h2run hren
  rw [hren]
  refine ⟨fs5, rfl, ?_, ?_, ?_, ?_⟩
  · rw [hst, if_neg, if_neg, if_neg, h2dir]
    · intro h
      have := h.length_le
      simp at this
    · intro h
      have := h.length_le
      simp at this
    · rw [List.append_assoc]
      exact (dir_cons_ne _ _ _).symm
  · intro c r hc
    have e0 : ∀ x : String, ¬ s.dir ++ [e.Metadata.ID] ++ [x] <+: s.dir ++ c :: r := by
      intro x
      rw [List.append_assoc, List.prefix_append_right_inj]
      simp only [List.singleton_append, List.cons_prefix_cons]
      exact fun h => hc h.1.symm
    have e1 : ¬ s.dir ++ c :: r = s.dir ++ [e.Metadata.ID] ++ [entryFileName] :=
      fun e => e0 entryFileName (by rw [e])
    rw [hst, if_neg e1, if_neg (e0 _), if_neg (e0 _), h2other c r hc]
  · rw [hst, if_neg (snoc_ne_self _ _), if_neg (snoc_not_above _ _),
      if_neg (snoc_not_above _ _), h2run]
  · have := hst (s.dir ++ [e.Metadata.ID] ++ [entryFileName])
    rw [if_pos rfl] at this
    simpa using this

/-! ### Store.pruneLocked -/

theorem Holds.perm {lib : Lib} {s : Store} {fs : FS} {held held' : List Metadata}
    (h : Holds lib s fs held) (hp : held.Perm held') : Holds lib s fs held' := by
  refine ⟨h.1, ?_, ?_, ?_⟩
  · intro c n hc
    obtain ⟨m, hm, hid⟩ := h.2.1 c n hc
    exact ⟨m, hp.mem_iff.mp hm, hid⟩
  · intro m hm
    exact h.2.2.1 m (hp.mem_iff.mpr hm)
  · exact (hp.map Metadata.ID).nodup_iff.mp h.2.2.2

theorem Holds.nodup {lib : Lib} {s : Store} {fs : FS} {held : List Metadata}
    (h : Holds lib s fs held) : held.Nodup :=
  List.Nodup.of_map _ h.2.2.2

theorem Holds.remove {lib : Lib} {s : Store} {fs : FS} {m : Metadata} {rest : List Metadata}
    (h : Holds lib s fs (m :: rest)) :
    Holds lib s (fs.RemoveAll (s.EntryDir m.ID)).1 rest := by
  have hsimple := (h.2.2.1 m (List.mem_cons_self _ _)).1
  have hne : s.dir ++ [m.ID] ≠ [] := by simp
  have hrm : fs.RemoveAll (s.dir ++ [m.ID]) = (fs.prune (s.dir ++ [m.ID]), none) := by
    rcases FS.RemoveAll_cases fs _ hne with ⟨_, e⟩ | ⟨h1, _⟩ | ⟨h1, _, _⟩
    · exact e
    · rw [List.dropLast_concat, h.1] at h1; cases h1
    · rw [List.dropLast_concat] at h1; exact absurd h.1 h1
  have hnd : m.ID ∉ rest.map Metadata.ID ∧ (rest.map Metadata.ID).Nodup := by
    have := h.2.2.2
    rw [List.map_cons, List.nodup_cons] at this
    exact this
  rw [Store.EntryDir_simple _ _ hsimple, hrm]
  have hst := FS.stat_prune fs _ hne
  have hkeep : ∀ c r, c ≠ m.ID →
      (fs.prune (s.dir ++ [m.ID])).stat (s.dir ++ c :: r) = fs.stat (s.dir ++ c :: r) := by
    intro c r hc
    rw [hst, if_neg]
    rw [List.prefix_append_right_inj, List.cons_prefix_cons]
    exact fun h => hc h.1.symm
  refine ⟨?_, ?_, ?_, hnd.2⟩
  · rw [hst, if_neg (snoc_not_above _ _), h.1]
  · intro c n hc
    by_cases hcm : c = m.ID
    · subst hcm
      rw [hst, if_pos (List.prefix_refl _)] at hc
      cases hc
    · rw [hkeep c [] hcm] at hc
      obtain ⟨m', hm', hid⟩ := h.2.1 c n hc
      rcases List.mem_cons.mp hm' with e | e
      · subst e; exact absurd hid.symm hcm
      · exact ⟨m', e, hid⟩
  · intro m' hm'
    obtain ⟨hs', data, e, hst', hdec, hmeta⟩ := h.2.2.1 m' (List.mem_cons_of_mem _ hm')
    have hid : m'.ID ≠ m.ID := fun e => hnd.1 (e ▸ List.mem_map_of_mem _ hm')
    exact ⟨hs', data, e, by rw [hkeep _ _ hid]; exact hst', hdec, hmeta⟩

theorem removeEntries_holds (lib : Lib) (s : Store) (del rest : List Metadata) (fs : FS)
    (h : Holds lib s fs (del ++ rest)) : Holds lib s (s.removeEntries fs del) rest := by
  induction del generalizing fs with
  | nil => exact h
  | cons m del ih =>
    unfold Store.removeEntries
    rw [List.foldl_cons]
    exact ih _ h.remove

theorem pruneLocked_holds (lib : Lib) (s : Store) (fs : FS) (held : List Metadata)
    (hsort : lib.SortOK lessBefore) (h : Holds lib s fs held) :
    (held.length ≤ s.maxEntries → s.pruneLocked lib fs = (fs, none)) ∧
    (s.maxEntries < held.length →
      ∃ del rest, (del ++ rest).Perm held ∧ del.length = held.length - s.maxEntries ∧
        (s.pruneLocked lib fs).2 = none ∧ Holds lib s (s.pruneLocked lib fs).1 rest ∧
        ∀ x ∈ del, ∀ y ∈ rest, x.CompletedAt ≤ y.CompletedAt) := by
  obtain ⟨entries, hrd, hperm⟩ := scan_of_holds lib s fs held h
  have hlen := hperm.length_eq
  constructor
  · intro hle
    unfold Store.pruneLocked
    rw [hrd]
    simp only [hlen, hle, if_true]
  · intro hlt
    have hnle : ¬ (s.scan lib fs entries).length ≤ s.maxEntries := by omega
    obtain ⟨hsp, hpw⟩ := hsort (s.scan lib fs entries)
    refine ⟨(lib.sortSlice lessBefore (s.scan lib fs entries)).take
        ((s.scan lib fs entries).length - s.maxEntries),
      (lib.sortSlice lessBefore (s.scan lib fs entries)).drop
        ((s.scan lib fs entries).length - s.maxEntries), ?_, ?_, ?_, ?_, ?_⟩
    · rw [List.take_append_drop]
      exact hsp.trans hperm
    · rw [List.length_take, hsp.length_eq, hlen]
      omega
    · unfold Store.pruneLocked
      rw [hrd]
      simp only [hnle, if_false]
    · have hfs : (s.pruneLocked lib fs).1
          = s.removeEntries fs ((lib.sortSlice lessBefore (s.scan lib fs entries)).take
              ((s.scan lib fs entries).length - s.maxEntries)) := by
        unfold Store.pruneLocked
        rw [hrd]
        simp only [hnle, if_false]
      rw [hfs]
      apply removeEntries_holds
      rw [List.take_append_drop]
      exact h.perm (hsp.trans hperm).symm
    · intro x hx y hy
      rw [← List.take_append_drop ((s.scan lib fs entries).length - s.maxEntries)
        (lib.sortSlice lessBefore (s.scan lib fs entries)), List.pairwise_append] at hpw
      have := hpw.2.2 x hx y hy
      simpa [lessBefore, Time.Before] using this

/-! ### A sequence of saves -/

theorem EmptyStore.ready (lib : Lib) (s : Store) (fs : FS) (h : EmptyStore s fs) :
    ∃ fs1, fs.MkdirAll s.dir = .ok fs1 ∧ Holds lib s fs1 [] := by
  rcases h with h | ⟨h, h'⟩
  · obtain ⟨fs1, h1, h2, h3⟩ := FS.mkdirFrom_missing fs s.dir [] (FS.stat_nil fs) (by simpa using h)
    refine ⟨fs1, h1, by simpa using h2, ?_, by simp, by simp⟩
    intro c n hc
    have := h3 [c] (by simp)
    simp only [List.nil_append] at this
    rw [this] at hc
    cases hc
  · refine ⟨fs, FS.MkdirAll_of_dir _ _ h, h, ?_, by simp, by simp⟩
    intro c n hc
    rw [h' c] at hc
    cases hc

/-- One `Save` of an entry with a new, single-element identifier into a store
that holds `held`: it returns no error, and the store then holds the entry and
`held`, or, above capacity, all of these but the `del` oldest. -/
theorem save_step (lib : Lib) (s : Store) (fs fs1 : FS) (held : List Metadata) (e : Entry)
    (hsort : lib.SortOK lessBefore)
    (hmk : fs.MkdirAll s.dir = .ok fs1) (h : Holds lib s fs1 held)
    (hid : SimpleName e.Metadata.ID) (hfresh : e.Metadata.ID ∉ held.map Metadata.ID)
    (hcodec : ∃ data e', lib.jsonEncode e = .ok data ∧ lib.jsonDecode data = .ok e' ∧
      e'.Metadata = e.Metadata) :
    (s.Save lib fs e).2 = none ∧
    ∃ held', Holds lib s (s.Save lib fs e).1 held' ∧
      ((held.length + 1 ≤ s.maxEntries ∧ held' = e.Metadata :: held) ∨
        (s.maxEntries < held.length + 1 ∧
          ∃ del, (del ++ held').Perm (e.Metadata :: held) ∧
            del.length = held.length + 1 - s.maxEntries ∧
            ∀ x ∈ del, ∀ y ∈ held', x.CompletedAt ≤ y.CompletedAt)) := by
  obtain ⟨data, e', henc, hdec, hmeta⟩ := hcodec
  have hrun : fs1.stat (s.dir ++ [e.Metadata.ID]) = .error Errno.ENOENT := by
    have hs := FS.stat_snoc fs1 s.dir e.Metadata.ID
    rw [h.1] at hs
    cases hn : fs1.node (s.dir ++ [e.Metadata.ID]) with
    | none => rw [hn] at hs; exact hs
    | some n =>
      rw [hn] at hs
      obtain ⟨m, hm, hmid⟩ := h.2.1 _ n hs
      exact absurd (hmid ▸ List.mem_map_of_mem _ hm) hfresh
  obtain ⟨fs5, hsave, h5dir, h5other, h5run, h5new⟩ :=
    Save_simple_stat lib s fs fs1 e data hmk h.1 hid henc (Or.inl hrun)
  have h5 : Holds lib s fs5 (e.Metadata :: held) := by
    refine ⟨h5dir, ?_, ?_, ?_⟩
    · intro c n hc
      by_cases hce : c = e.Metadata.ID
      · exact ⟨e.Metadata, List.mem_cons_self _ _, hce.symm⟩
      · rw [h5other c [] hce] at hc
        obtain ⟨m, hm, hmid⟩ := h.2.1 c n hc
        exact ⟨m, List.mem_cons_of_mem _ hm, hmid⟩
    · intro m hm
      rcases List.mem_cons.mp hm with rfl | hm
      · exact ⟨hid, data, e', h5new, hdec, hmeta⟩
      · obtain ⟨hs', d, e2, hst, hd2, hm2⟩ := h.2.2.1 m hm
        have hne : m.ID ≠ e.Metadata.ID := fun e0 => hfresh (e0 ▸ List.mem_map_of_mem _ hm)
        exact ⟨hs', d, e2, by rw [h5other _ _ hne]; exact hst, hd2, hm2⟩
    · rw [List.map_cons, List.nodup_cons]
      exact ⟨hfresh, h.2.2.2⟩
  obtain ⟨hle, hgt⟩ := pruneLocked_holds lib s fs5 _ hsort h5
  rw [hsave]
  by_cases hcap : (e.Metadata :: held).length ≤ s.maxEntries
  · rw [hle hcap]
    exact ⟨rfl, _, h5, Or.inl ⟨by simpa using hcap, rfl⟩⟩
  · obtain ⟨del, rest, hperm, hlen, hnone, hholds, hord⟩ := hgt (by omega)
    refine ⟨hnone, rest, hholds, Or.inr ⟨?_, del, hperm, by simpa using hlen, hord⟩⟩
    simp only [List.length_cons] at hcap
    omega

theorem evict_step (cap : Nat) (held done : List Metadata) (e : Metadata)
    (held' : List Metadata)
    (hsub : ∀ m ∈ held, m ∈ done) (hlen : held.length = min done.length cap)
    (hold : ∀ r ∈ done, r ∉ held → ∀ m ∈ held, r.CompletedAt ≤ m.CompletedAt)
    (hnd : (e :: held).Nodup)
    (hcase : (held.length + 1 ≤ cap ∧ held' = e :: held) ∨
      (cap < held.length + 1 ∧
        ∃ del, (del ++ held').Perm (e :: held) ∧ del.length = held.length + 1 - cap ∧
          ∀ x ∈ del, ∀ y ∈ held', x.CompletedAt ≤ y.CompletedAt)) :
    (∀ m ∈ held', m ∈ e :: done) ∧ held'.length = min (done.length + 1) cap ∧
    (∀ r ∈ e :: done, r ∉ held' → ∀ m ∈ held', r.CompletedAt ≤ m.CompletedAt) := by
  have hnd' : held.Nodup := (List.nodup_cons.mp hnd).2
  rcases hcase with ⟨hcap, rfl⟩ | ⟨hcap, del, hperm, hdl, hord⟩
  · have hfull : held.length = done.length := by
      rcases Nat.le_total done.length cap with h | h
      · rw [Nat.min_eq_left h] at hlen; exact hlen
      · rw [Nat.min_eq_right h] at hlen; omega
    have hall : ∀ r ∈ done, r ∈ held := by
      have hsp : held.Subperm done := List.subperm_of_subset hnd' hsub
      have := hsp.perm_of_length_le (by omega)
      exact fun r hr => this.mem_iff.mpr hr
    refine ⟨?_, ?_, ?_⟩
    · intro m hm
      rcases List.mem_cons.mp hm with rfl | hm
      · exact List.mem_cons_self _ _
      · exact List.mem_cons_of_mem _ (hsub m hm)
    · rw [List.length_cons, hfull]
      omega
    · intro r hr hnot
      exfalso
      rcases List.mem_cons.mp hr with rfl | hr
      · exact hnot (List.mem_cons_self _ _)
      · exact hnot (List.mem_cons_of_mem _ (hall r hr))
  · have hlen2 := hperm.length_eq
    rw [List.length_append, List.length_cons] at hlen2
    have hheld : held.length = cap := by
      rcases Nat.le_total done.length cap with h | h
      · rw [Nat.min_eq_left h] at hlen; omega
      · rw [Nat.min_eq_right h] at hlen; exact hlen
    have hdone : cap ≤ done.length := by
      rcases Nat.le_total done.length cap with h | h
      · rw [Nat.min_eq_left h] at hlen; omega
      · exact h
    refine ⟨?_, ?_, ?_⟩
    · intro m hm
      have : m ∈ e :: held := hperm.mem_iff.mp (List.mem_append_right _ hm)
      rcases List.mem_cons.mp this with rfl | hm'
      · exact List.mem_cons_self _ _
      · exact List.mem_cons_of_mem _ (hsub m hm')
    · omega
    · intro r hr hnot m hm
      by_cases hrd : r ∈ del
      · exact hord r hrd m hm
      · have hr' : r ∉ e :: held := by
          intro h
          rcases List.mem_append.mp (hperm.mem_iff.mpr h) with h1 | h1
          · exact hrd h1
          · exact hnot h1
        have hre : r ∈ done := by
          rcases List.mem_cons.mp hr with rfl | h
          · exact absurd (List.mem_cons_self _ _) hr'
          · exact h
        have hrh : r ∉ held := fun h => hr' (List.mem_cons_of_mem _ h)
        have hm' : m ∈ e :: held := hperm.mem_iff.mp (List.mem_append_right _ hm)
        rcases List.mem_cons.mp hm' with rfl | hmh
        · obtain ⟨x, hx⟩ : ∃ x, x ∈ del := by
            apply List.exists_mem_of_length_pos
            omega
          have hxm : x ≠ m := by
            intro exm
            have hdisj := (List.nodup_append.mp (hperm.nodup_iff.mpr hnd)).2.2
            exact hdisj hx (exm ▸ hm)
          have hx' : x ∈ m :: held := hperm.mem_iff.mp (List.mem_append_left _ hx)
          rcases List.mem_cons.mp hx' with rfl | hxh
          · exact absurd rfl hxm
          · exact le_trans (hold r hre hrh x hxh) (hord x hx m hm)
        · exact hold r hre hrh m hmh

theorem saveAll_holds (lib : Lib) (s : Store) (hsort : lib.SortOK lessBefore) :
    ∀ (es : List Entry) (fs : FS) (held done : List Metadata),
      Holds lib s fs held →
      (∀ m ∈ held, m ∈ done) → held.length = min done.length s.maxEntries →
      (∀ r ∈ done, r ∉ held → ∀ m ∈ held, r.CompletedAt ≤ m.CompletedAt) →
      (∀ e ∈ es, SimpleName e.Metadata.ID ∧
        ∃ data e', lib.jsonEncode e = .ok data ∧ lib.jsonDecode data = .ok e' ∧
          e'.Metadata = e.Metadata) →
      (es.map (fun e => e.Metadata.ID) ++ done.map Metadata.ID).Nodup →
      (∀ r ∈ (saveAll lib s fs es).2, r = none) ∧
      ∃ held', Holds lib s (saveAll lib s fs es).1 held' ∧
        (∀ m ∈ held', m ∈ es.map Entry.Metadata ∨ m ∈ done) ∧
        held'.length = min (done.length + es.length) s.maxEntries ∧
        (∀ r, r ∈ es.map Entry.Metadata ∨ r ∈ done → r ∉ held' →
          ∀ m ∈ held', r.CompletedAt ≤ m.CompletedAt) := by
  intro es
  induction es with
  | nil =>
    intro fs held done h hsub hlen hold _ _
    refine ⟨by simp [saveAll], held, h, fun m hm => Or.inr (hsub m hm), by simpa using hlen, ?_⟩
    intro r hr hnot m hm
    rcases hr with hr | hr
    · simp at hr
    · exact hold r hr hnot m hm
  | cons e es ih =>
    intro fs held done h hsub hlen hold hes hnd
    have hnd1 : e.Metadata.ID ∉ es.map (fun e => e.Metadata.ID) ++ done.map Metadata.ID ∧
        (es.map (fun e => e.Metadata.ID) ++ done.map Metadata.ID).Nodup := by
      simpa [List.nodup_cons] using hnd
    have hfreshDone : e.Metadata.ID ∉ done.map Metadata.ID :=
      fun hm => hnd1.1 (List.mem_append_right _ hm)
    have hfresh : e.Metadata.ID ∉ held.map Metadata.ID := by
      intro hm
      obtain ⟨m, hm1, hm2⟩ := List.mem_map.mp hm
      exact hfreshDone (hm2 ▸ List.mem_map_of_mem _ (hsub m hm1))
    obtain ⟨hsimple, hcodec⟩ := hes e (List.mem_cons_self _ _)
    obtain ⟨hnone, held1, hholds1, hcase⟩ :=
      save_step lib s fs fs held e hsort (FS.MkdirAll_of_dir _ _ h.1) h hsimple hfresh hcodec
    have hnd2 : (e.Metadata :: held).Nodup := by
      rw [List.nodup_cons]
      exact ⟨fun hm => hfresh (List.mem_map_of_mem _ hm), h.nodup⟩
    obtain ⟨hsub1, hlen1, hold1⟩ :=
      evict_step s.maxEntries held done e.Metadata held1 hsub hlen hold hnd2 hcase
    have hnd3 : (es.map (fun e => e.Metadata.ID)
        ++ (e.Metadata :: done).map Metadata.ID).Nodup := by
      rw [List.map_cons]
      refine (List.perm_middle.nodup_iff).mpr ?_
      rw [List.nodup_cons]
      exact hnd1
    obtain ⟨hnone', held2, hholds2, hsub2, hlen2, hold2⟩ :=
      ih (s.Save lib fs e).1 held1 (e.Metadata :: done) hholds1 hsub1
        (by simpa using hlen1) hold1
        (fun e' he' => hes e' (List.mem_cons_of_mem _ he')) hnd3
    have hmem : ∀ r, (r ∈ es.map Entry.Metadata ∨ r ∈ e.Metadata :: done) ↔
        (r ∈ (e :: es).map Entry.Metadata ∨ r ∈ done) := by
      intro r
      simp only [List.map_cons, List.mem_cons]
      tauto
    refine ⟨?_, held2, hholds2, fun m hm => (hmem m).mp (hsub2 m hm), ?_, ?_⟩
    · intro r hr
      simp only [saveAll, List.mem_cons] at hr
      rcases hr with rfl | hr
      · exact hnone
      · exact hnone' r hr
    · rw [hlen2]
      simp only [List.length_cons]
      congr 1
      omega
    · intro r hr
      exact hold2 r ((hmem r).mpr hr)

/-- C1, as stated, fails: with capacity 1, saving the entry with the empty
identifier (completed at 40) and then entry `a` (completed at 10), both without
error, leaves a store that lists `a` only, although the other entry, which is
not in the store, was completed later. -/
theorem C1_counterexample_empty_id :
    smallStore.maxEntries = 1 ∧
    entryD.Metadata.ID ≠ entryA.Metadata.ID ∧
    (saveAll sampleLib smallStore [] [entryD, entryA]).2 = [none, none] ∧
    smallStore.List sampleLib (saveAll sampleLib smallStore [] [entryD, entryA]).1
      = .ok [entryA.Metadata] ∧
    entryA.Metadata.CompletedAt < entryD.Metadata.CompletedAt := by
  decide

/-- C1, amended: entries whose identifiers are pairwise distinct single path
elements and whose JSON document reads back with the same metadata, more than
the capacity of them, are saved one after another into an initially empty
store.  Every `Save` returns no error, and `List` then returns exactly
`maxEntries` entries, all of them among the saved ones, such that no saved entry
that is missing was completed strictly later than one that is listed. -/
theorem C1_eviction_keeps_most_recent (lib : Lib) (s : Store) (fs : FS)
    (entries : List Entry)
    (hbefore : lib.SortOK lessBefore) (hafter : lib.SortOK lessAfter)
    (hempty : EmptyStore s fs)
    (hids : ∀ e ∈ entries, SimpleName e.Metadata.ID)
    (hcodec : ∀ e ∈ entries, ∃ data e', lib.jsonEncode e = .ok data ∧
      lib.jsonDecode data = .ok e' ∧ e'.Metadata = e.Metadata)
    (hnodup : (entries.map (fun e => e.Metadata.ID)).Nodup)
    (hN : s.maxEntries < entries.length) :
    (∀ r ∈ (saveAll lib s fs entries).2, r = none) ∧
    ∃ l, s.List lib (saveAll lib s fs entries).1 = .ok l ∧
      l.length = s.maxEntries ∧ l.Nodup ∧
      (∀ m ∈ l, ∃ e ∈ entries, e.Metadata = m) ∧
      (∀ e ∈ entries, e.Metadata ∉ l →
        ∀ m ∈ l, e.Metadata.CompletedAt ≤ m.CompletedAt) := by
  cases entries with
  | nil => simp at hN
  | cons e es =>
    obtain ⟨fs1, hmk, h0⟩ := EmptyStore.ready lib s fs hempty
    obtain ⟨hnone, held1, hholds1, hcase⟩ :=
      save_step lib s fs fs1 [] e hbefore hmk h0 (hids e (List.mem_cons_self _ _)) (by simp)
        (hcodec e (List.mem_cons_self _ _))
    obtain ⟨hsub1, hlen1, hold1⟩ :=
      evict_step s.maxEntries [] [] e.Metadata held1 (by simp) (by simp) (by simp) (by simp)
        hcase
    have hnd3 : (es.map (fun e => e.Metadata.ID) ++ [e.Metadata].map Metadata.ID).Nodup := by
      rw [List.map_cons, List.map_nil]
      refine (List.perm_middle.nodup_iff).mpr ?_
      simpa using hnodup
    obtain ⟨hnone', held2, hholds2, hsub2, hlen2, hold2⟩ :=
      saveAll_holds lib s hbefore es (s.Save lib fs e).1 held1 [e.Metadata] hholds1 hsub1
        (by simpa using hlen1) hold1
        (fun e' he' => ⟨hids e' (List.mem_cons_of_mem _ he'),
          hcodec e' (List.mem_cons_of_mem _ he')⟩) hnd3
    have hmem : ∀ r, (r ∈ es.map Entry.Metadata ∨ r ∈ [e.Metadata]) ↔
        ∃ e' ∈ e :: es, e'.Metadata = r := by
      intro r
      constructor
      · rintro (h | h)
        · obtain ⟨e', he', rfl⟩ := List.mem_map.mp h
          exact ⟨e', List.mem_cons_of_mem _ he', rfl⟩
        · have : r = e.Metadata := by simpa using h
          exact ⟨e, List.mem_cons_self _ _, this.symm⟩
      · rintro ⟨e', he', rfl⟩
        rcases List.mem_cons.mp he' with rfl | h
        · exact Or.inr (by simp)
        · exact Or.inl (List.mem_map_of_mem _ h)
    obtain ⟨dirEntries, hrd, hperm⟩ := scan_of_holds lib s _ held2 hholds2
    have hl : (lib.sortSlice lessAfter (s.scan lib (saveAll lib s (s.Save lib fs e).1 es).1
        dirEntries)).Perm held2 := (hafter _).1.trans hperm
    refine ⟨?_, lib.sortSlice lessAfter (s.scan lib (saveAll lib s (s.Save lib fs e).1 es).1
      dirEntries), by simp only [Store.List, saveAll, hrd], ?_, ?_, ?_, ?_⟩
    · intro r hr
      simp only [saveAll, List.mem_cons] at hr
      rcases hr with rfl | hr
      · exact hnone
      · exact hnone' r hr
    · rw [hl.length_eq, hlen2]
      simp only [List.length_cons, List.length_nil] at hN ⊢
      omega
    · exact hl.nodup_iff.mpr hholds2.nodup
    · intro m hm
      exact (hmem m).mp (hsub2 m (hl.mem_iff.mp hm))
    · intro e' he' hnot m hm
      exact hold2 e'.Metadata ((hmem _).mpr ⟨e', he', rfl⟩)
        (fun h => hnot (hl.mem_iff.mpr h)) m (hl.mem_iff.mp hm)

theorem C1_eviction_keeps_most_recent_witness :
    smallStore.maxEntries < [entryB, entryA, entryC].length ∧
    (saveAll sampleLib smallStore [] [entryB, entryA, entryC]).2 = [none, none, none] ∧
    smallStore.List sampleLib (saveAll sampleLib smallStore [] [entryB, entryA, entryC]).1
      = .ok [entryC.Metadata] ∧
    ((∀ r ∈ (saveAll sampleLib smallStore [] [entryB, entryA, entryC]).2, r = none) ∧
      ∃ l, smallStore.List sampleLib
          (saveAll sampleLib smallStore [] [entryB, entryA, entryC]).1 = .ok l ∧
        l.length = smallStore.maxEntries ∧ l.Nodup ∧
        (∀ m ∈ l, ∃ e ∈ [entryB, entryA, entryC], e.Metadata = m) ∧
        (∀ e ∈ [entryB, entryA, entryC], e.Metadata ∉ l →
          ∀ m ∈ l, e.Metadata.CompletedAt ≤ m.CompletedAt)) :=
  ⟨by decide, by decide, by decide,
    C1_eviction_keeps_most_recent sampleLib smallStore [] [entryB, entryA, entryC]
      sampleLib_sortOK_before sampleLib_sortOK_after (Or.inl (by decide))
      (by decide)
      (by
        intro e he
        simp only [List.mem_cons, List.mem_singleton, List.not_mem_nil, or_false] at he
        rcases he with rfl | rfl | rfl
        · exact ⟨[0x42], entryB, by decide, by decide, rfl⟩
        · exact ⟨[0x41], entryA, by decide, by decide, rfl⟩
        · exact ⟨[0x43], entryC, by decide, by decide, rfl⟩)
      (by decide) (by decide)⟩

/-! ### Store.Save followed by Store.Get -/

theorem FS.mkdirFrom_ok (rest : Path) (fs fs1 : FS) (pre : Path)
    (hpre : fs.stat pre = .ok Node.dir) (h : FS.mkdirFrom fs pre rest = .ok fs1) :
    fs1.stat (pre ++ rest) = .ok Node.dir := by
  induction rest generalizing fs pre with
  | nil =>
    simp only [FS.mkdirFrom, Except.ok.injEq] at h
    subst h
    simpa using hpre
  | cons c cs ih =>
    simp only [FS.mkdirFrom] at h
    have hassoc : pre ++ c :: cs = pre ++ [c] ++ cs := by simp
    cases hn : fs.node (pre ++ [c]) with
    | some n =>
      rw [hn] at h
      cases n with
      | file d => cases h
      | dir =>
        rw [hassoc]
        exact ih fs (pre ++ [c]) (by rw [FS.stat_snoc, hpre, hn]) h
    | none =>
      rw [hn] at h
      rw [hassoc]
      refine ih _ (pre ++ [c]) ?_ h
      rw [FS.stat_new_dir fs (pre ++ [c]) (by simp) (by simpa using hpre), if_pos rfl]

theorem FS.RemoveAll_file_or_gone (fs : FS) (p q : Path) (d : Bytes) (hq : q ≠ [])
    (h : fs.stat q = .ok (Node.file d) ∨ fs.stat q = .error Errno.ENOENT) :
    (fs.RemoveAll p).1.stat q = .ok (Node.file d) ∨
      (fs.RemoveAll p).1.stat q = .error Errno.ENOENT := by
  by_cases hp : p = []
  · subst hp
    right
    simp only [FS.RemoveAll]
    exact FS.stat_empty q hq
  · rcases FS.RemoveAll_cases fs p hp with ⟨hs, e⟩ | ⟨_, e⟩ | ⟨_, _, _, e⟩
    · rw [e]
      simp only
      rw [FS.stat_prune _ _ hp]
      by_cases hpq : p <+: q
      · right
        rw [if_pos hpq]
        simp [FS.goneErr, hs]
      · rw [if_neg hpq]
        exact h
    · rw [e]; exact h
    · rw [e]; exact h

theorem removeEntries_file_or_gone (s : Store) (del : List Metadata) (fs : FS) (q : Path)
    (d : Bytes) (hq : q ≠ [])
    (h : fs.stat q = .ok (Node.file d) ∨ fs.stat q = .error Errno.ENOENT) :
    (s.removeEntries fs del).stat q = .ok (Node.file d) ∨
      (s.removeEntries fs del).stat q = .error Errno.ENOENT := by
  induction del generalizing fs with
  | nil => exact h
  | cons m del ih =>
    unfold Store.removeEntries
    rw [List.foldl_cons]
    exact ih _ (FS.RemoveAll_file_or_gone fs _ q d hq h)

theorem pruneLocked_file_or_gone (lib : Lib) (s : Store) (fs : FS) (q : Path) (d : Bytes)
    (hq : q ≠ []) (h : fs.stat q = .ok (Node.file d)) :
    (s.pruneLocked lib fs).1.stat q = .ok (Node.file d) ∨
      (s.pruneLocked lib fs).1.stat q = .error Errno.ENOENT := by
  unfold Store.pruneLocked
  cases hrd : fs.ReadDir s.dir with
  | error e =>
    simp only
    split <;> exact Or.inl h
  | ok entries =>
    simp only
    split
    · exact Or.inl h
    · exact removeEntries_file_or_gone s _ fs q d hq (Or.inl h)

/-- After a `Save` without error, the entry file holds the document that was
written, or it does not exist any more. -/
theorem Save_file_or_gone (lib : Lib) (s : Store) (fs : FS) (e : Entry)
    (h : (s.Save lib fs e).2 = none) :
    ∃ data, lib.jsonEncode e = .ok data ∧
      ((s.Save lib fs e).1.stat (s.EntryPath e.Metadata.ID) = .ok (Node.file data) ∨
        (s.Save lib fs e).1.stat (s.EntryPath e.Metadata.ID) = .error Errno.ENOENT) := by
  unfold Store.Save at h ⊢
  cases hmk : fs.MkdirAll s.dir with
  | error err => rw [hmk] at h; cases h
  | ok fs1 =>
    rw [hmk] at h
    simp only at h ⊢
    cases hmk2 : fs1.MkdirAll (s.EntryDir e.Metadata.ID) with
    | error err => rw [hmk2] at h; cases h
    | ok fs2 =>
      rw [hmk2] at h
      simp only at h ⊢
      have h2run : fs2.stat (s.EntryDir e.Metadata.ID) = .ok Node.dir := by
        have := FS.mkdirFrom_ok _ fs1 fs2 [] (FS.stat_nil fs1) hmk2
        simpa using this
      cases henc : lib.jsonEncode e with
      | error msg => rw [henc] at h; cases h
      | ok data =>
        rw [henc] at h
        simp only [Store.EntryPath_eq] at h ⊢
        cases hren : ((fs2.put (s.EntryDir e.Metadata.ID
            ++ [lib.tempName fs2 (s.EntryDir e.Metadata.ID)]) (Node.file [])).put
            (s.EntryDir e.Metadata.ID ++ [lib.tempName fs2 (s.EntryDir e.Metadata.ID)])
            (Node.file data)).Rename
            (s.EntryDir e.Metadata.ID ++ [lib.tempName fs2 (s.EntryDir e.Metadata.ID)])
            (s.EntryDir e.Metadata.ID ++ [entryFileName]) with
        | error err => rw [hren] at h; cases h
        | ok fs5 =>
          simp only
          have hst := write_tail fs2 _ _ data fs5 h2run hren
              (s.EntryDir e.Metadata.ID ++ [entryFileName])
          rw [if_pos rfl] at hst
          exact ⟨data, rfl, pruneLocked_file_or_gone lib s fs5 _ data (by simp) hst⟩

theorem Store.Get_of_file (lib : Lib) (s : Store) (fs : FS) (id : String) (data : Bytes)
    (e : Entry) (h : fs.stat (s.EntryPath id) = .ok (Node.file data))
    (hdec : lib.jsonDecode data = .ok e) : s.Get lib fs id = .ok e := by
  simp [Store.Get, FS.ReadFile, h, hdec]

/-- A `Save` into a store in proper layout that has room, or holds an entry
completed strictly earlier, keeps the entry file it wrote. -/
theorem save_keeps (lib : Lib) (s : Store) (fs fs1 : FS) (held : List Metadata) (e : Entry)
    (data : Bytes) (hsort : lib.SortOK lessBefore)
    (hmk : fs.MkdirAll s.dir = .ok fs1) (h : Holds lib s fs1 held)
    (hid : SimpleName e.Metadata.ID) (hfresh : e.Metadata.ID ∉ held.map Metadata.ID)
    (henc : lib.jsonEncode e = .ok data)
    (hdec : ∃ e', lib.jsonDecode data = .ok e' ∧ e'.Metadata = e.Metadata)
    (hcap : held.length ≤ s.maxEntries)
    (hroom : held.length < s.maxEntries ∨
      ∃ m ∈ held, m.CompletedAt < e.Metadata.CompletedAt) :
    (s.Save lib fs e).2 = none ∧
    (s.Save lib fs e).1.stat (s.EntryPath e.Metadata.ID) = .ok (Node.file data) := by
  obtain ⟨e', hdec', hmeta'⟩ := hdec
  obtain ⟨hnone, held', hholds, hcase⟩ :=
    save_step lib s fs fs1 held e hsort hmk h hid hfresh ⟨data, e', henc, hdec', hmeta'⟩
  refine ⟨hnone, ?_⟩
  have hin : e.Metadata ∈ held' := by
    rcases hcase with ⟨_, rfl⟩ | ⟨hgt, del, hperm, hlen, hord⟩
    · exact List.mem_cons_self _ _
    · have hone : del.length = 1 := by omega
      obtain ⟨m, hm, hlt⟩ : ∃ m ∈ held, m.CompletedAt < e.Metadata.CompletedAt := by
        rcases hroom with h1 | h1
        · omega
        · exact h1
      obtain ⟨x, rfl⟩ := List.length_eq_one.mp hone
      have he : e.Metadata ∈ [x] ++ held' := hperm.mem_iff.mpr (List.mem_cons_self _ _)
      rcases List.mem_append.mp he with h1 | h1
      · exfalso
        have hx : x = e.Metadata := (List.mem_singleton.mp h1).symm
        have hm' : m ∈ [x] ++ held' := hperm.mem_iff.mpr (List.mem_cons_of_mem _ hm)
        rcases List.mem_append.mp hm' with h2 | h2
        · have : m = x := by simpa using h2
          rw [this, hx] at hlt
          exact lt_irrefl _ hlt
        · have := hord x (List.mem_singleton_self _) m h2
          rw [hx] at this
          exact absurd hlt (not_lt.mpr this)
      · exact h1
  obtain ⟨_, data2, e2, hst, _, _⟩ := hholds.2.2.1 _ hin
  have hpath : s.EntryPath e.Metadata.ID = s.dir ++ [e.Metadata.ID, entryFileName] := by
    rw [Store.EntryPath_eq, Store.EntryDir_simple _ _ hid]
    simp
  obtain ⟨data', henc', hcases⟩ := Save_file_or_gone lib s fs e hnone
  rw [henc] at henc'
  cases henc'
  rcases hcases with h1 | h1
  · exact h1
  · rw [hpath, hst] at h1
    cases h1

/-- A `Save` into a full store in proper layout of an entry completed strictly
earlier than every entry held evicts that entry itself. -/
theorem save_evicts_oldest (lib : Lib) (s : Store) (fs fs1 : FS) (held : List Metadata)
    (e : Entry) (hsort : lib.SortOK lessBefore)
    (hmk : fs.MkdirAll s.dir = .ok fs1) (h : Holds lib s fs1 held)
    (hid : SimpleName e.Metadata.ID) (hfresh : e.Metadata.ID ∉ held.map Metadata.ID)
    (hcodec : ∃ data e', lib.jsonEncode e = .ok data ∧ lib.jsonDecode data = .ok e' ∧
      e'.Metadata = e.Metadata)
    (hfull : held.length = s.maxEntries)
    (hold : ∀ m ∈ held, e.Metadata.CompletedAt < m.CompletedAt) :
    (s.Save lib fs e).2 = none ∧
    s.Get lib (s.Save lib fs e).1 e.Metadata.ID = .error StoreError.ErrNotFound := by
  obtain ⟨hnone, held', hholds, hcase⟩ :=
    save_step lib s fs fs1 held e hsort hmk h hid hfresh hcodec
  refine ⟨hnone, ?_⟩
  have hnd : (e.Metadata :: held).Nodup := by
    rw [List.nodup_cons]
    exact ⟨fun hm => hfresh (List.mem_map_of_mem _ hm), h.nodup⟩
  rcases hcase with ⟨hle, _⟩ | ⟨_, del, hperm, hlen, hord⟩
  · omega
  · have hone : del.length = 1 := by omega
    obtain ⟨x, rfl⟩ := List.length_eq_one.mp hone
    have hout : e.Metadata ∉ held' := by
      intro hin
      have hx : x ∈ e.Metadata :: held :=
        hperm.mem_iff.mp (List.mem_append_left _ (List.mem_singleton_self _))
      have hdisj := (List.nodup_append.mp (hperm.nodup_iff.mpr hnd)).2.2
      rcases List.mem_cons.mp hx with rfl | hxh
      · exact hdisj (List.mem_singleton_self _) hin
      · have h1 := hord x (List.mem_singleton_self _) _ hin
        exact absurd (hold x hxh) (not_lt.mpr h1)
    have hgone : (s.Save lib fs e).1.stat (s.dir ++ [e.Metadata.ID]) = .error Errno.ENOENT := by
      have hs := FS.stat_snoc (s.Save lib fs e).1 s.dir e.Metadata.ID
      rw [hholds.1] at hs
      cases hn : (s.Save lib fs e).1.node (s.dir ++ [e.Metadata.ID]) with
      | none => rw [hn] at hs; exact hs
      | some n =>
        rw [hn] at hs
        exfalso
        obtain ⟨m, hm, hmid⟩ := hholds.2.1 _ n hs
        have hm' : m ∈ e.Metadata :: held := hperm.mem_iff.mp (List.mem_append_right _ hm)
        rcases List.mem_cons.mp hm' with rfl | hmh
        · exact hout hm
        · exact hfresh (hmid ▸ List.mem_map_of_mem _ hmh)
    rw [Store.Get_eq_ErrNotFound, Store.EntryPath_eq, Store.EntryDir_simple _ _ hid]
    exact FS.stat_append_of_error _ _ _ hgone _

theorem sampleLib_jsonOK : sampleLib.JSONOK := by
  intro e data _ henc
  simp only [sampleLib] at henc ⊢
  split_ifs at henc with h1 h2 h3 h4 h5
  · cases henc; subst h1; decide
  · cases henc; subst h2; decide
  · cases henc; subst h3; decide
  · cases henc; subst h4; decide
  · cases henc; subst h5; decide

/-- C2, as stated, fails, in two ways.  The store of capacity 1 holds entry `b`
(completed at 20); saving entry `a` (completed at 10) returns no error, and
`Get` of `a` then fails with `ErrNotFound`, the eviction that ends the save
having removed it.  And saving entry `e`, whose payload is `{"a":1}`, into an
empty store returns no error, and `Get` of `e` returns the payload as the
indenting encoder wrote it, on three lines, which is not the payload saved. -/
theorem C2_counterexample_evicted_reindented :
    (smallStore.maxEntries = 1 ∧
      smallStore.List sampleLib fsB = .ok [entryB.Metadata] ∧
      entryA.Metadata.CompletedAt < entryB.Metadata.CompletedAt ∧
      (smallStore.Save sampleLib fsB entryA).2 = none ∧
      smallStore.Get sampleLib (smallStore.Save sampleLib fsB entryA).1 entryA.Metadata.ID
        = .error StoreError.ErrNotFound) ∧
    (entryE.Result = [0x7B, 0x22, 0x61, 0x22, 0x3A, 0x31, 0x7D] ∧
      storedRaw entryE.Result
        = [0x7B, 0x0A, 0x20, 0x20, 0x20, 0x20, 0x22, 0x61, 0x22, 0x3A, 0x20, 0x31,
            0x0A, 0x20, 0x20, 0x7D] ∧
      (historyStore.Save sampleLib [] entryE).2 = none ∧
      historyStore.Get sampleLib (historyStore.Save sampleLib [] entryE).1 entryE.Metadata.ID
        = .ok { Metadata := entryE.Metadata, Result := storedRaw entryE.Result } ∧
      historyStore.Get sampleLib (historyStore.Save sampleLib [] entryE).1 entryE.Metadata.ID
        ≠ .ok entryE) := by
  decide

/-- C2, amended.  For every state and entry, after a `Save` without error the
entry file holds the JSON document that was written, or it was removed by the
eviction of that `Save`: `Get` returns the metadata of the entry with the
payload as it stands in the document, compacted and re-indented by the encoder,
or fails with `ErrNotFound`.  For a store in proper layout, not above capacity,
and an identifier that is a single path element not yet in the store: the entry
is kept, and `Get` returns it so, when the store has room or holds an entry
completed strictly earlier, the payload being the one saved exactly when
re-indenting leaves it as it is; the entry is evicted, and `Get` fails with
`ErrNotFound`, when the store is full and every entry held was completed
strictly later.  What is assumed of `encoding/json` is `Lib.JSONOK`. -/
theorem C2_round_trip (lib : Lib) (s : Store) (fs : FS) (e : Entry) :
    ((s.Save lib fs e).2 = none →
      ∃ data, lib.jsonEncode e = .ok data ∧
        ((s.Save lib fs e).1.ReadFile (s.EntryPath e.Metadata.ID) = .ok data ∨
          s.Get lib (s.Save lib fs e).1 e.Metadata.ID = .error StoreError.ErrNotFound) ∧
        (lib.JSONOK → e.Result ≠ [] →
          s.Get lib (s.Save lib fs e).1 e.Metadata.ID
            = .ok { Metadata := e.Metadata, Result := storedRaw e.Result } ∨
          s.Get lib (s.Save lib fs e).1 e.Metadata.ID = .error StoreError.ErrNotFound)) ∧
    (∀ (held : List Metadata) (data : Bytes), lib.SortOK lessBefore → lib.JSONOK →
      ((EmptyStore s fs ∧ held = []) ∨ Holds lib s fs held) →
      SimpleName e.Metadata.ID → e.Metadata.ID ∉ held.map Metadata.ID →
      e.Result ≠ [] → lib.jsonEncode e = .ok data →
      held.length ≤ s.maxEntries →
      (held.length < s.maxEntries ∨ ∃ m ∈ held, m.CompletedAt < e.Metadata.CompletedAt) →
      (s.Save lib fs e).2 = none ∧
        s.Get lib (s.Save lib fs e).1 e.Metadata.ID
          = .ok { Metadata := e.Metadata, Result := storedRaw e.Result } ∧
        (s.Get lib (s.Save lib fs e).1 e.Metadata.ID = .ok e ↔ storedRaw e.Result = e.Result)) ∧
    (∀ (held : List Metadata) (data : Bytes), lib.SortOK lessBefore → lib.JSONOK →
      ((EmptyStore s fs ∧ held = []) ∨ Holds lib s fs held) →
      SimpleName e.Metadata.ID → e.Metadata.ID ∉ held.map Metadata.ID →
      e.Result ≠ [] → lib.jsonEncode e = .ok data →
      held.length = s.maxEntries →
      (∀ m ∈ held, e.Metadata.CompletedAt < m.CompletedAt) →
      (s.Save lib fs e).2 = none ∧
        s.Get lib (s.Save lib fs e).1 e.Metadata.ID = .error StoreError.ErrNotFound) := by
  refine ⟨?_, ?_, ?_⟩
  · intro h
    obtain ⟨data, henc, hcases⟩ := Save_file_or_gone lib s fs e h
    refine ⟨data, henc, ?_, ?_⟩
    · rcases hcases with h1 | h1
      · exact Or.inl ((FS.ReadFile_eq_ok _ _ _).mpr h1)
      · exact Or.inr ((Store.Get_eq_ErrNotFound _ _ _ _).mpr h1)
    · intro hjson hres
      rcases hcases with h1 | h1
      · exact Or.inl (Store.Get_of_file lib s _ _ data _ h1 (hjson e data hres henc))
      · exact Or.inr ((Store.Get_eq_ErrNotFound _ _ _ _).mpr h1)
  · intro held data hsort hjson hstore hid hfresh hres henc hcap hroom
    obtain ⟨fs1, hmk, hholds⟩ : ∃ fs1, fs.MkdirAll s.dir = .ok fs1 ∧ Holds lib s fs1 held := by
      rcases hstore with ⟨h1, rfl⟩ | h1
      · exact EmptyStore.ready lib s fs h1
      · exact ⟨fs, FS.MkdirAll_of_dir _ _ h1.1, h1⟩
    have hdec := hjson e data hres henc
    obtain ⟨hnone, hst⟩ :=
      save_keeps lib s fs fs1 held e data hsort hmk hholds hid hfresh henc
        ⟨_, hdec, rfl⟩ hcap hroom
    have hget := Store.Get_of_file lib s _ _ data _ hst hdec
    refine ⟨hnone, hget, ?_⟩
    rw [hget]
    constructor
    · intro h
      have h' := congrArg Entry.Result (Except.ok.inj h)
      exact h'
    · intro h
      rw [h]
  · intro held data hsort hjson hstore hid hfresh hres henc hfull hold
    obtain ⟨fs1, hmk, hholds⟩ : ∃ fs1, fs.MkdirAll s.dir = .ok fs1 ∧ Holds lib s fs1 held := by
      rcases hstore with ⟨h1, rfl⟩ | h1
      · exact EmptyStore.ready lib s fs h1
      · exact ⟨fs, FS.MkdirAll_of_dir _ _ h1.1, h1⟩
    exact save_evicts_oldest lib s fs fs1 held e hsort hmk hholds hid hfresh
      ⟨data, _, henc, hjson e data hres henc, rfl⟩ hfull hold

theorem holds_fsB : Holds sampleLib smallStore fsB [entryB.Metadata] := by
  obtain ⟨fs1, hmk, h0⟩ := EmptyStore.ready sampleLib smallStore [] (Or.inl (by decide))
  obtain ⟨_, held', hholds, hcase⟩ :=
    save_step sampleLib smallStore [] fs1 [] entryB sampleLib_sortOK_before hmk h0
      (by decide) (by simp) ⟨[0x42], entryB, by decide, by decide, rfl⟩
  rcases hcase with ⟨_, rfl⟩ | ⟨hgt, _⟩
  · exact hholds
  · exact absurd hgt (by decide)

theorem C2_round_trip_witness :
    smallStore.List sampleLib fsB = .ok [entryB.Metadata] ∧
    (smallStore.Save sampleLib fsB entryE).2 = none ∧
    smallStore.Get sampleLib (smallStore.Save sampleLib fsB entryE).1 entryE.Metadata.ID
      = .ok { Metadata := entryE.Metadata, Result := storedRaw entryE.Result } ∧
    (smallStore.Get sampleLib (smallStore.Save sampleLib fsB entryE).1 entryE.Metadata.ID
        = .ok entryE ↔ storedRaw entryE.Result = entryE.Result) :=
  ⟨by decide,
    (C2_round_trip sampleLib smallStore fsB entryE).2.1 [entryB.Metadata] [0x45]
      sampleLib_sortOK_before sampleLib_jsonOK (Or.inr holds_fsB) (by decide) (by decide)
      (by decide) (by decide) (by decide) (Or.inr ⟨entryB.Metadata, by simp, by decide⟩)⟩

/-! ### The job registry -/

/-- C11: `Update` returns true exactly when a record with the identifier is in
the table; then the record under the identifier becomes the update applied to
the previous record and every other record is unchanged; otherwise the table is
unchanged. -/
theorem C11_Update_spec (s : JobStore) (id : String) (update : Job → Job) :
    ((s.Update id update).2 = true ↔ ∃ job, s.Get id = some job) ∧
    (∀ job, s.Get id = some job →
      (s.Update id update).2 = true ∧
      (s.Update id update).1.Get id = some (update job) ∧
      ∀ id', id' ≠ id → (s.Update id update).1.Get id' = s.Get id') ∧
    (s.Get id = none → (s.Update id update).2 = false ∧ (s.Update id update).1 = s) := by
  unfold JobStore.Update JobStore.Get
  cases h : s id with
  | none => simp
  | some job =>
    refine ⟨by simp, ?_, by simp⟩
    intro job' hj
    cases hj
    refine ⟨rfl, by simp, ?_⟩
    intro id' hne
    simp [hne]

/-- C12, as stated, fails: the run unit runs concurrently with the handler
that started it.  When its first write comes before the handler reads the
record for the response, the response of the submission carries running, and
so does the status query on the table of that moment. -/
theorem C12_counterexample_running :
    (analyzeImage NewJobStore (some sampleRequest) "j1" 100 id).2.2
      = some { jobID := "j1", req := sampleRequest, target := "alpine:latest" } ∧
    (analyzeImage NewJobStore (some sampleRequest) "j1" 100
        (runUnitProgress sampleLib diveSucceeds 200 []
          { jobID := "j1", req := sampleRequest, target := "alpine:latest" } 1)).1
      = Response.analyze StatusAccepted { JobID := "j1", Status := StatusRunning } ∧
    getAnalysisStatus
        (runUnitProgress sampleLib diveSucceeds 200 []
          { jobID := "j1", req := sampleRequest, target := "alpine:latest" } 1
          (analyzeImage NewJobStore (some sampleRequest) "j1" 100 id).2.1) "j1"
      = Response.status StatusOK { JobID := "j1", Status := StatusRunning, Message := "" } := by
  decide

/-- C12, amended: `Create` returns a record with the drawn identifier, status
queued, empty message, no result, unset `CompletedAt` and the creation time,
stored under that identifier, and leaves the records under other identifiers
unchanged.  After a submission that `analyzeImage` accepts, the table it leaves
holds the record as queued (the source/target update does not change the
status) and the other records as before; the response carries the status the
record has when it is read: queued when the run unit has not written yet,
running once the run unit has made its first write, as the status query then
does. -/
theorem C12_Create_spec (s : JobStore) (newJobID : String) (now : Time) :
    (s.Create newJobID now).1.ID = newJobID ∧
    (s.Create newJobID now).1.Status = StatusQueued ∧
    (s.Create newJobID now).1.Message = "" ∧
    (s.Create newJobID now).1.Result = [] ∧
    (s.Create newJobID now).1.CompletedAt = Time.zero ∧
    (s.Create newJobID now).1.CreatedAt = now ∧
    (s.Create newJobID now).2.Get (s.Create newJobID now).1.ID = some (s.Create newJobID now).1 ∧
    (∀ id, id ≠ (s.Create newJobID now).1.ID → (s.Create newJobID now).2.Get id = s.Get id) ∧
    (∀ (bound : Option AnalyzeRequest) (unit : RunUnit) (ran : JobStore → JobStore),
      (analyzeImage s bound newJobID now ran).2.2 = some unit →
      unit.jobID = newJobID ∧
      getAnalysisStatus (analyzeImage s bound newJobID now ran).2.1 newJobID
        = Response.status StatusOK
            { JobID := newJobID, Status := StatusQueued, Message := "" } ∧
      (∀ id, id ≠ newJobID → (analyzeImage s bound newJobID now ran).2.1.Get id = s.Get id) ∧
      (∀ job, (ran (analyzeImage s bound newJobID now ran).2.1).Get newJobID = some job →
        (analyzeImage s bound newJobID now ran).1
          = Response.analyze StatusAccepted { JobID := job.ID, Status := job.Status }) ∧
      (∀ (lib : Lib) (runDive : String → String → Except GoError Bytes) (completedAt : Time)
          (fs : FS),
        (analyzeImage s bound newJobID now
            (runUnitProgress lib runDive completedAt fs unit 0)).1
          = Response.analyze StatusAccepted { JobID := newJobID, Status := StatusQueued } ∧
        (analyzeImage s bound newJobID now
            (runUnitProgress lib runDive completedAt fs unit 1)).1
          = Response.analyze StatusAccepted { JobID := newJobID, Status := StatusRunning } ∧
        getAnalysisStatus
            (runUnitProgress lib runDive completedAt fs unit 1
              (analyzeImage s bound newJobID now ran).2.1) newJobID
          = Response.status StatusOK
              { JobID := newJobID, Status := StatusRunning, Message := "" })) := by
  refine ⟨rfl, rfl, rfl, rfl, rfl, rfl, by simp [JobStore.Create, JobStore.Get], ?_, ?_⟩
  · intro id hne
    simp only [JobStore.Create, JobStore.Get] at hne ⊢
    simp [hne]
  · intro bound unit ran h
    obtain ⟨hid, hrec⟩ := analyzeImage_record s bound newJobID now ran unit h
    cases bound with
    | none => simp [analyzeImage] at h
    | some req0 =>
      cases ht : resolveAnalyzeTarget
          { req0 with
            Source := if TrimSpace req0.Source = "" then "docker" else TrimSpace req0.Source } with
      | error err => simp [analyzeImage, ht] at h
      | ok target =>
        have hunit : unit = { jobID := newJobID
                              req := { req0 with
                                Source := if TrimSpace req0.Source = "" then "docker"
                                  else TrimSpace req0.Source }
                              target := target } := by
          simp [analyzeImage, ht, JobStore.Create] at h
          exact h.symm
        have hresp : ∀ ran' : JobStore → JobStore,
            (analyzeImage s (some req0) newJobID now ran').2.1
              = (analyzeImage s (some req0) newJobID now ran).2.1 := by
          intro ran'
          simp [analyzeImage, ht]
        have hfirst : ∀ ran' : JobStore → JobStore, ∀ job,
            (ran' (analyzeImage s (some req0) newJobID now ran).2.1).Get newJobID = some job →
            (analyzeImage s (some req0) newJobID now ran').1
              = Response.analyze StatusAccepted { JobID := job.ID, Status := job.Status } := by
          intro ran' job hjob
          have e := hresp ran'
          simp only [analyzeImage, ht, JobStore.Create] at e hjob ⊢
          simp only [hjob]
        refine ⟨hid, ?_, ?_, hfirst ran, ?_⟩
        · simp [getAnalysisStatus, JobStore.Get, hrec]
        · intro id hne
          simp [analyzeImage, ht, JobStore.Create, JobStore.Update, JobStore.Get, hne]
        · intro lib runDive completedAt fs
          have h1 : (runUnitProgress lib runDive completedAt fs unit 1
              (analyzeImage s (some req0) newJobID now ran).2.1).Get newJobID
              = some
                  { ID := newJobID, Status := StatusRunning, Message := "", Result := []
                    Source := unit.req.Source, Target := unit.target, CreatedAt := now
                    CompletedAt := Time.zero } := by
            subst hid
            simp only [runUnitProgress, runAnalyzeJobTrace, JobStore.Update, JobStore.Get, hrec]
            cases runDive unit.req.Source unit.target with
            | error err => simp
            | ok result =>
              simp only [if_true]
              split <;> simp
          refine ⟨?_, ?_, ?_⟩
          · have h0 : (runUnitProgress lib runDive completedAt fs unit 0
                (analyzeImage s (some req0) newJobID now ran).2.1).Get newJobID
                = some
                    { ID := newJobID, Status := StatusQueued, Message := "", Result := []
                      Source := unit.req.Source, Target := unit.target, CreatedAt := now
                      CompletedAt := Time.zero } := hrec
            exact hfirst (runUnitProgress lib runDive completedAt fs unit 0) _ h0
          · exact hfirst (runUnitProgress lib runDive completedAt fs unit 1) _ h1
          · simp [getAnalysisStatus, h1]

theorem C12_Create_spec_witness :
    (analyzeImage NewJobStore (some sampleRequest) "j1" 100 id).2.2
      = some { jobID := "j1", req := sampleRequest, target := "alpine:latest" } ∧
    getAnalysisStatus (analyzeImage NewJobStore (some sampleRequest) "j1" 100 id).2.1 "j1"
      = Response.status StatusOK { JobID := "j1", Status := StatusQueued, Message := "" } ∧
    (analyzeImage NewJobStore (some sampleRequest) "j1" 100
        (runUnitProgress sampleLib diveFails 200 []
          { jobID := "j1", req := sampleRequest, target := "alpine:latest" } 0)).1
      = Response.analyze StatusAccepted { JobID := "j1", Status := StatusQueued } :=
  ⟨by decide,
    ((C12_Create_spec NewJobStore "j1" 100).2.2.2.2.2.2.2.2 (some sampleRequest)
      { jobID := "j1", req := sampleRequest, target := "alpine:latest" } id (by decide)).2.1,
    (((C12_Create_spec NewJobStore "j1" 100).2.2.2.2.2.2.2.2 (some sampleRequest)
      { jobID := "j1", req := sampleRequest, target := "alpine:latest" } id
        (by decide)).2.2.2.2 sampleLib diveFails 200 []).1⟩

/-! ### exports.topFileReferences -/

theorem insertionFileSort_ok : FileSort.OK insertionFileSort lessLarger := by
  intro l
  have htot : IsTotal diveFileReference (fun a b => lessLarger b a = false) :=
    ⟨fun a b => by
      simp only [lessLarger, gt_iff_lt, decide_eq_false_iff_not, not_lt]
      exact le_total _ _⟩
  have htr : IsTrans diveFileReference (fun a b => lessLarger b a = false) :=
    ⟨fun a b c => by
      simp only [lessLarger, gt_iff_lt, decide_eq_false_iff_not, not_lt]
      exact fun h1 h2 => le_trans h2 h1⟩
  exact ⟨List.perm_insertionSort _ l, List.sorted_insertionSort _ l⟩

/-- C14: for a limit that is not negative, `topFileReferences` returns a list
of length `min(len(files), limit)`, ordered by `SizeBytes` non-increasing, that
is a sub-multiset of the input; the elements left out are no larger than the
elements kept; and the slice of the caller is as it was. -/
theorem C14_topFileReferences_spec (sortSlice : FileSort) (files : List diveFileReference)
    (limit : Int) (hsort : FileSort.OK sortSlice lessLarger) (hlimit : 0 ≤ limit) :
    ∃ result, topFileReferences sortSlice files limit = (files, some result) ∧
      result.length = min files.length limit.toNat ∧
      result.Pairwise (fun a b => b.SizeBytes ≤ a.SizeBytes) ∧
      result.Subperm files ∧
      ∃ rest, (result ++ rest).Perm files ∧
        ∀ x ∈ rest, ∀ y ∈ result, x.SizeBytes ≤ y.SizeBytes := by
  obtain ⟨hperm, hpw⟩ := hsort files
  have hpw' : (sortSlice lessLarger files).Pairwise (fun a b => b.SizeBytes ≤ a.SizeBytes) := by
    refine hpw.imp ?_
    intro a b hab
    simpa [lessLarger] using hab
  have hlen := hperm.length_eq
  have hnn : ¬ limit < 0 := not_lt.mpr hlimit
  unfold topFileReferences
  by_cases hgt : (files.length : Int) > limit
  · simp only [hgt, hnn, if_true, if_false]
    refine ⟨_, rfl, ?_, ?_, ?_, (sortSlice lessLarger files).drop limit.toNat, ?_, ?_⟩
    · rw [List.length_take, hlen]
      omega
    · exact hpw'.sublist (List.take_sublist _ _)
    · exact (List.take_sublist _ _).subperm.trans hperm.subperm
    · rw [List.take_append_drop]
      exact hperm
    · intro x hx y hy
      have h := hpw'
      rw [← List.take_append_drop limit.toNat (sortSlice lessLarger files),
        List.pairwise_append] at h
      exact h.2.2 y hy x hx
  · simp only [hgt, if_false]
    refine ⟨_, rfl, ?_, hpw', hperm.subperm, [], by simpa using hperm, by simp⟩
    rw [hlen]
    omega

theorem C14_topFileReferences_spec_witness :
    FileSort.OK insertionFileSort lessLarger ∧ (0 : Int) ≤ 2 ∧
    topFileReferences insertionFileSort sampleFiles 2
      = (sampleFiles,
          some [{ Count := 2, SizeBytes := 30, File := "/bin/b" },
            { Count := 1, SizeBytes := 20, File := "/bin/c" }]) ∧
    ∃ result, topFileReferences insertionFileSort sampleFiles 2 = (sampleFiles, some result) ∧
      result.length = min sampleFiles.length (2 : Int).toNat ∧
      result.Pairwise (fun a b => b.SizeBytes ≤ a.SizeBytes) ∧
      result.Subperm sampleFiles ∧
      ∃ rest, (result ++ rest).Perm sampleFiles ∧
        ∀ x ∈ rest, ∀ y ∈ result, x.SizeBytes ≤ y.SizeBytes :=
  ⟨insertionFileSort_ok, by decide, by decide,
    C14_topFileReferences_spec insertionFileSort sampleFiles 2 insertionFileSort_ok (by decide)⟩

/-! ### Store.Delete: what it leaves in place -/

theorem FS.RemoveAll_stat_keep (fs : FS) (p q : Path) (h : ¬ p <+: q) :
    (fs.RemoveAll p).1.stat q = fs.stat q := by
  by_cases hp : p = []
  · subst hp
    exact absurd (List.nil_prefix) h
  · rcases FS.RemoveAll_cases fs p hp with ⟨_, e⟩ | ⟨_, e⟩ | ⟨_, _, _, e⟩
    · rw [e]
      simp only
      rw [FS.stat_prune _ _ hp, if_neg h]
    · rw [e]
    · rw [e]

theorem Delete_Get_keep (lib : Lib) (s : Store) (fs : FS) (id id' : String)
    (h : ¬ s.EntryDir id <+: s.EntryPath id') :
    s.Get lib (s.Delete fs id).1 id' = s.Get lib fs id' := by
  unfold Store.Get FS.ReadFile
  rw [Store.Delete_fst, FS.RemoveAll_stat_keep fs _ _ h]

theorem Holds.delete {lib : Lib} {s : Store} {fs : FS} {held : List Metadata}
    (h : Holds lib s fs held) (id : String) (hid : SimpleName id) :
    (s.Delete fs id).2 = none ∧
    Holds lib s (s.Delete fs id).1 (held.filter (fun m => decide (m.ID ≠ id))) := by
  have hne : s.dir ++ [id] ≠ [] := by simp
  have hrm : fs.RemoveAll (s.dir ++ [id]) = (fs.prune (s.dir ++ [id]), none) := by
    rcases FS.RemoveAll_cases fs _ hne with ⟨_, e⟩ | ⟨h1, _⟩ | ⟨h1, _, _⟩
    · exact e
    · rw [List.dropLast_concat, h.1] at h1; cases h1
    · rw [List.dropLast_concat] at h1; exact absurd h.1 h1
  rw [Store.Delete_fst, Store.Delete_snd, Store.EntryDir_simple _ _ hid, hrm]
  refine ⟨rfl, ?_⟩
  simp only
  have hst := FS.stat_prune fs _ hne
  have hkeep : ∀ c r, c ≠ id →
      (fs.prune (s.dir ++ [id])).stat (s.dir ++ c :: r) = fs.stat (s.dir ++ c :: r) := by
    intro c r hc
    rw [hst, if_neg]
    rw [List.prefix_append_right_inj, List.cons_prefix_cons]
    exact fun h => hc h.1.symm
  refine ⟨?_, ?_, ?_, ?_⟩
  · rw [hst, if_neg (snoc_not_above _ _), h.1]
  · intro c n hc
    by_cases hcm : c = id
    · subst hcm
      rw [hst, if_pos (List.prefix_refl _)] at hc
      cases hc
    · rw [hkeep c [] hcm] at hc
      obtain ⟨m, hm, hmid⟩ := h.2.1 c n hc
      refine ⟨m, ?_, hmid⟩
      rw [List.mem_filter]
      exact ⟨hm, by simpa [hmid] using hcm⟩
  · intro m hm
    rw [List.mem_filter] at hm
    obtain ⟨hs', data, e, hst', hdec, hmeta⟩ := h.2.2.1 m hm.1
    have hmid : m.ID ≠ id := by simpa using hm.2
    exact ⟨hs', data, e, by rw [hkeep _ _ hmid]; exact hst', hdec, hmeta⟩
  · exact h.2.2.2.sublist (List.Sublist.map _ (List.filter_sublist _))

theorem List_of_holds (lib : Lib) (s : Store) (fs : FS) (held : List Metadata)
    (hsort : lib.SortOK lessAfter) (h : Holds lib s fs held) :
    ∃ l, s.List lib fs = .ok l ∧ l.Perm held ∧
      l.Pairwise (fun a b => b.CompletedAt ≤ a.CompletedAt) := by
  obtain ⟨entries, hrd, hperm⟩ := scan_of_holds lib s fs held h
  refine ⟨_, by simp only [Store.List, hrd], (hsort _).1.trans hperm, ?_⟩
  refine (hsort _).2.imp ?_
  intro a b hab
  simpa [lessAfter, Time.After] using hab

theorem simple_not_above (s : Store) (id id' : String) (hid : SimpleName id)
    (hid' : SimpleName id') (hne : id' ≠ id) : ¬ s.EntryDir id <+: s.EntryPath id' := by
  rw [Store.EntryPath_eq, Store.EntryDir_simple _ _ hid, Store.EntryDir_simple _ _ hid',
    List.append_assoc, List.prefix_append_right_inj]
  simp only [List.singleton_append, List.cons_prefix_cons]
  exact fun h => hne h.1.symm

theorem holds_fsA : Holds sampleLib historyStore fsA [entryA.Metadata] := by
  obtain ⟨fs1, hmk, h0⟩ := EmptyStore.ready sampleLib historyStore [] (Or.inl (by decide))
  obtain ⟨_, held', hholds, hcase⟩ :=
    save_step sampleLib historyStore [] fs1 [] entryA sampleLib_sortOK_before hmk h0
      (by decide) (by simp) ⟨[0x41], entryA, by decide, by decide, rfl⟩
  rcases hcase with ⟨_, rfl⟩ | ⟨hgt, _⟩
  · exact hholds
  · exact absurd hgt (by decide)

theorem holds_fsAB :
    Holds sampleLib historyStore fsAB [entryB.Metadata, entryA.Metadata] := by
  obtain ⟨_, held', hholds, hcase⟩ :=
    save_step sampleLib historyStore fsA fsA [entryA.Metadata] entryB sampleLib_sortOK_before
      (FS.MkdirAll_of_dir _ _ holds_fsA.1) holds_fsA (by decide) (by decide)
      ⟨[0x42], entryB, by decide, by decide, rfl⟩
  rcases hcase with ⟨_, rfl⟩ | ⟨hgt, _⟩
  · exact hholds
  · exact absurd hgt (by decide)

/-- C13, as stated, fails: the store holds the entries `a` and `b`; `Delete` of
the empty identifier, whose entry directory is the store directory itself,
returns no error and removes them all, so that `Get` of `a` fails afterwards and
`List` is empty. -/
theorem C13_counterexample_empty_id :
    historyStore.List sampleLib fsAB = .ok [entryB.Metadata, entryA.Metadata] ∧
    historyStore.Get sampleLib fsAB "a" = .ok entryA ∧
    ("a" : String) ≠ "" ∧
    (historyStore.Delete fsAB "").2 = none ∧
    historyStore.Get sampleLib (historyStore.Delete fsAB "").1 "a"
      = .error StoreError.ErrNotFound ∧
    historyStore.List sampleLib (historyStore.Delete fsAB "").1 = .ok [] := by
  decide

/-- C13, amended: in a store in proper layout, `Delete` of an identifier that
is a single path element returns no error; `Get` of every other identifier
that is a single path element returns afterwards what it returned before, in
particular the entry of every other entry held; and `List` afterwards is, up to
the order of entries completed at the same time, the earlier `List` without
the metadata that carry the identifier, ordered by completion time
descending. -/
theorem C13_Delete_frame (lib : Lib) (s : Store) (fs : FS) (held : List Metadata)
    (id : String) (hsort : lib.SortOK lessAfter) (h : Holds lib s fs held)
    (hid : SimpleName id) :
    (s.Delete fs id).2 = none ∧
    (∀ id', SimpleName id' → id' ≠ id →
      s.Get lib (s.Delete fs id).1 id' = s.Get lib fs id') ∧
    (∀ m ∈ held, m.ID ≠ id →
      ∃ e, e.Metadata = m ∧ s.Get lib fs m.ID = .ok e ∧
        s.Get lib (s.Delete fs id).1 m.ID = .ok e) ∧
    ∃ before after, s.List lib fs = .ok before ∧
      s.List lib (s.Delete fs id).1 = .ok after ∧
      after.Perm (before.filter (fun m => decide (m.ID ≠ id))) ∧
      after.Pairwise (fun a b => b.CompletedAt ≤ a.CompletedAt) := by
  obtain ⟨hnone, hholds⟩ := h.delete id hid
  have hframe : ∀ id', SimpleName id' → id' ≠ id →
      s.Get lib (s.Delete fs id).1 id' = s.Get lib fs id' :=
    fun id' hid' hne => Delete_Get_keep lib s fs id id' (simple_not_above s id id' hid hid' hne)
  refine ⟨hnone, hframe, ?_, ?_⟩
  · intro m hm hne
    obtain ⟨hsimple, data, e, hst, hdec, hmeta⟩ := h.2.2.1 m hm
    have hpath : s.EntryPath m.ID = s.dir ++ [m.ID, entryFileName] := by
      rw [Store.EntryPath_eq, Store.EntryDir_simple _ _ hsimple]
      simp
    have hget : s.Get lib fs m.ID = .ok e :=
      Store.Get_of_file lib s fs m.ID data e (by rw [hpath]; exact hst) hdec
    exact ⟨e, hmeta, hget, by rw [hframe m.ID hsimple hne]; exact hget⟩
  · obtain ⟨before, hb, hbp, _⟩ := List_of_holds lib s fs held hsort h
    obtain ⟨after, ha, hap, hasorted⟩ := List_of_holds lib s _ _ hsort hholds
    exact ⟨before, after, hb, ha, hap.trans (hbp.filter _).symm, hasorted⟩

theorem C13_Delete_frame_witness :
    sampleLib.SortOK lessAfter ∧
    Holds sampleLib historyStore fsAB [entryB.Metadata, entryA.Metadata] ∧
    SimpleName "a" ∧
    historyStore.Get sampleLib (historyStore.Delete fsAB "a").1 "b" = .ok entryB ∧
    historyStore.List sampleLib (historyStore.Delete fsAB "a").1 = .ok [entryB.Metadata] ∧
    ((historyStore.Delete fsAB "a").2 = none ∧
      (∀ id', SimpleName id' → id' ≠ "a" →
        historyStore.Get sampleLib (historyStore.Delete fsAB "a").1 id'
          = historyStore.Get sampleLib fsAB id') ∧
      (∀ m ∈ [entryB.Metadata, entryA.Metadata], m.ID ≠ "a" →
        ∃ e, e.Metadata = m ∧ historyStore.Get sampleLib fsAB m.ID = .ok e ∧
          historyStore.Get sampleLib (historyStore.Delete fsAB "a").1 m.ID = .ok e) ∧
      ∃ before after, historyStore.List sampleLib fsAB = .ok before ∧
        historyStore.List sampleLib (historyStore.Delete fsAB "a").1 = .ok after ∧
        after.Perm (before.filter (fun m => decide (m.ID ≠ "a"))) ∧
        after.Pairwise (fun a b => b.CompletedAt ≤ a.CompletedAt)) :=
  ⟨sampleLib_sortOK_after, holds_fsAB, by decide, by decide, by decide,
    C13_Delete_frame sampleLib historyStore fsAB [entryB.Metadata, entryA.Metadata] "a"
      sampleLib_sortOK_after holds_fsAB (by decide)⟩

end DiveIn
